import Mathlib

/-!
Shallow embedding of the third-iteration inventory backend (src/backend.js,
lines 309-641): append-only transaction ledger, balance projection, payables
ledger, and the FIFO / weighted-average costing engine.

Modelling conventions:
* JS numbers are modelled as rationals (ℚ); quantities, costs and prices are
  exact arithmetic.
* uuid identifiers (products, suppliers, transaction ids) are modelled as
  naturals; the falsy value of a missing required field is modelled as 0,
  matching the truthiness validation in the route handlers.
* The transaction directory is modelled as a list of transactions in file
  creation order.  Each transaction carries its numeric timestamp
  (Date.now()) and an abstract file-name token serving as the key for the
  lexicographic file-name ordering used by the consumption loop; readdir is
  modelled as returning files in creation order, with the explicit sorts of
  the source (by timestamp in loadPurchaseBatches, by file name in the sale
  consumption loop) applied on top.
* Route handlers perform no writes before any error exit in the source, so
  each handler is embedded as a function returning the rejected error or the
  successor state.
-/

/-- Transaction type tag: obj.type is the string PURCHASE or SALE. -/
inductive TxType where
  | PURCHASE
  | SALE
deriving DecidableEq, Repr

/-- One immutable transaction file.  PURCHASE entries are written with
quantity, unitCost, totalCost, reference and a mutable remaining field
initialised to the quantity; SALE entries are written with quantity,
unitPrice, totalRevenue and cogs and no remaining field (remaining = none).
Fields absent for a given type are defaulted to 0 / none. -/
structure Tx where
  id : Nat
  type : TxType
  productId : Nat
  warehouseId : Nat
  supplierId : Nat := 0
  quantity : ℚ
  unitCost : ℚ := 0
  unitPrice : ℚ := 0
  totalCost : ℚ := 0
  totalRevenue : ℚ := 0
  cogs : ℚ := 0
  reference : Option Nat := none
  remaining : Option ℚ := none
  timestamp : Nat
  name : Nat
deriving DecidableEq, Repr

/-- One invoice or payment entry in a supplier payable record. -/
structure PayEntry where
  id : Nat
  amount : ℚ
  reference : Option Nat
  timestamp : Nat
deriving DecidableEq, Repr

/-- A supplier payable record: running amount plus invoice and payment
histories.  The source creates the record as amount 0 with empty invoices;
the payments array is created on first payment (payments or ``[]``),
observably identical to an empty list. -/
structure Payable where
  amount : ℚ
  invoices : List PayEntry := []
  payments : List PayEntry := []
deriving DecidableEq, Repr

/-- Whole persistent state: products.json (only the set of ids matters to
the ledger logic), the transaction directory in creation order, balances.json
and payables.json as association lists. -/
structure St where
  products : List Nat := []
  ledger : List Tx := []
  balances : List ((Nat × Nat) × ℚ) := []
  payables : List (Nat × Payable) := []
deriving DecidableEq, Repr

/-- The empty store produced at startup. -/
def initSt : St := {}

/-- Read of balances for a key: (balances[productId] or empty)[warehouseId] or 0. -/
def getBal (bs : List ((Nat × Nat) × ℚ)) (p w : Nat) : ℚ :=
  (bs.lookup (p, w)).getD 0

/-- Write of one balances cell, leaving every other cell unchanged. -/
def setBal (bs : List ((Nat × Nat) × ℚ)) (p w : Nat) (v : ℚ) :
    List ((Nat × Nat) × ℚ) :=
  ((p, w), v) :: bs.filter (fun kv => kv.1 ≠ (p, w))

/-- Lookup of a payable record by supplier id. -/
def getPayable (ps : List (Nat × Payable)) (sid : Nat) : Option Payable :=
  ps.lookup sid

/-- Write of one payable record, leaving other suppliers unchanged. -/
def setPayable (ps : List (Nat × Payable)) (sid : Nat) (v : Payable) :
    List (Nat × Payable) :=
  (sid, v) :: ps.filter (fun kv => kv.1 ≠ sid)

/-- Filter predicate of loadPurchaseBatches and of the sale consumption
loop: obj.type is PURCHASE and obj.productId and obj.warehouseId match. -/
def matchesBatch (p w : Nat) (tx : Tx) : Prop :=
  tx.type = TxType.PURCHASE ∧ tx.productId = p ∧ tx.warehouseId = w

instance (p w : Nat) (tx : Tx) : Decidable (matchesBatch p w tx) := by
  unfold matchesBatch; infer_instance

/-- Available units of a lot: obj.remaining when the field is defined,
obj.quantity otherwise. -/
def avail (tx : Tx) : ℚ :=
  tx.remaining.getD tx.quantity

/-- loadPurchaseBatches: scan the transaction directory, keep PURCHASE
entries for the (product, warehouse) pair, and sort ascending by timestamp
(JS sort is stable; insertionSort is the stable sort on the creation-order
listing). -/
def loadPurchaseBatches (ledger : List Tx) (p w : Nat) : List Tx :=
  List.insertionSort (fun a b => a.timestamp ≤ b.timestamp)
    (ledger.filter (fun tx => matchesBatch p w tx))

/-- Loop body of computeCOGS_FIFO: walk the batches carrying the still
needed quantity and the accumulated cost; skip lots with available ≤ 0,
take min(available, remaining) from each other lot, and break as soon as
the need drops to ≤ 0.  Returns (need left, cogs). -/
def fifoLoop : List Tx → ℚ → ℚ → ℚ × ℚ
  | [], rem, cogs => (rem, cogs)
  | b :: bs, rem, cogs =>
    let a := avail b
    if a ≤ 0 then fifoLoop bs rem cogs
    else
      let take := min a rem
      let cogs2 := cogs + take * b.unitCost
      let rem2 := rem - take
      if rem2 ≤ 0 then (rem2, cogs2) else fifoLoop bs rem2 cogs2

/-- computeCOGS_FIFO: walk the sorted purchase batches; if a positive need
is left at the end, throw Insufficient stock for FIFO. -/
def computeCOGS_FIFO (ledger : List Tx) (p w : Nat) (qty : ℚ) :
    Except String ℚ :=
  let r := fifoLoop (loadPurchaseBatches ledger p w) qty 0
  if 0 < r.1 then Except.error "Insufficient stock for FIFO" else Except.ok r.2

/-- computeCOGS_Avg: total available quantity and total cost over all
batches; error when totalQty < qty, otherwise (totalCost / totalQty) * qty. -/
def computeCOGS_Avg (ledger : List Tx) (p w : Nat) (qty : ℚ) :
    Except String ℚ :=
  let bs := loadPurchaseBatches ledger p w
  let totalQty := (bs.map avail).sum
  let totalCost := (bs.map (fun b => avail b * b.unitCost)).sum
  if totalQty < qty then Except.error "Insufficient stock for AVG"
  else Except.ok ((totalCost / totalQty) * qty)

/-- Consumption loop of the sale route over the name-sorted directory
listing: for each matching purchase file, materialise remaining (remaining
if defined else quantity); skip the file without rewriting it when
remaining ≤ 0; otherwise subtract take = min(remaining, remainingToConsume),
rewrite the file, and break when remainingToConsume hits exactly 0. -/
def consumeFiles (p w : Nat) : ℚ → List Tx → List Tx
  | _, [] => []
  | rtc, tx :: rest =>
    if matchesBatch p w tx then
      let rem := avail tx
      if rem ≤ 0 then tx :: consumeFiles p w rtc rest
      else
        let take := min rem rtc
        let tx2 : Tx := { tx with remaining := some (rem - take) }
        if rtc - take = 0 then tx2 :: rest
        else tx2 :: consumeFiles p w (rtc - take) rest
    else tx :: consumeFiles p w rtc rest

/-- FIFO lot consumption of the sale route: list the directory, sort the
file names, run the consumption loop, and write each updated file back in
place (files are keyed by name; every unaffected file keeps its content). -/
def saleConsume (p w : Nat) (qty : ℚ) (ledger : List Tx) : List Tx :=
  let sorted := List.insertionSort (fun a b => a.name ≤ b.name) ledger
  let consumed := consumeFiles p w qty sorted
  ledger.map (fun tx => (consumed.find? (fun u => u.name == tx.name)).getD tx)

/-- Typed failures surfaced by the route handlers. -/
inductive Err where
  | missingFields
  | invalidProduct
  | insufficientStock (available : ℚ)
  | noPayable
  | internal (msg : String)
deriving DecidableEq, Repr

/-- Costing method of a sale request; the source defaults a missing or
unrecognised method to FIFO via (costingMethod or FIFO).toUpperCase(). -/
inductive Method where
  | FIFO
  | AVG
deriving DecidableEq, Repr

/-- The PURCHASE transaction record written by the purchase route:
remaining is initialised to the purchased quantity. -/
def mkPurchaseTx (productId warehouseId supplierId : Nat)
    (quantity unitCost : ℚ) (reference : Option Nat)
    (txId timestamp name : Nat) : Tx :=
  { id := txId
    type := TxType.PURCHASE
    productId := productId
    warehouseId := warehouseId
    supplierId := supplierId
    quantity := quantity
    unitCost := unitCost
    totalCost := quantity * unitCost
    reference := reference
    remaining := some quantity
    timestamp := timestamp
    name := name }

/-- The SALE transaction record written by the sale route: no remaining
field is written. -/
def mkSaleTx (productId warehouseId : Nat) (quantity unitPrice cogs : ℚ)
    (txId timestamp name : Nat) : Tx :=
  { id := txId
    type := TxType.SALE
    productId := productId
    warehouseId := warehouseId
    quantity := quantity
    unitPrice := unitPrice
    totalRevenue := quantity * unitPrice
    cogs := cogs
    timestamp := timestamp
    name := name }

/-- The payable record after the purchase route has added an invoice:
amount increased by quantity*unitCost, invoice entry appended (the record
is created as amount 0 with empty histories when absent). -/
def purchasePayable (prev : Option Payable) (q c : ℚ) (ref : Option Nat)
    (tid ts : Nat) : Payable :=
  let p := prev.getD { amount := 0 }
  { p with
    amount := p.amount + q * c
    invoices := p.invoices ++
      [{ id := tid, amount := q * c, reference := ref, timestamp := ts }] }

/-- The payable record after the pay route has recorded a payment: amount
decreased and clamped at zero, payment entry appended. -/
def paidPayable (p : Payable) (amt : ℚ) (ref : Option Nat)
    (payId ts : Nat) : Payable :=
  { p with
    amount := if p.amount - amt < 0 then 0 else p.amount - amt
    payments := p.payments ++
      [{ id := payId, amount := amt, reference := ref, timestamp := ts }] }

/-- createProduct route: reject a falsy name, otherwise insert the product
under a fresh uuid key. -/
def createProductOp (s : St) (id name : Nat) : Except Err St :=
  if name = 0 then Except.error Err.missingFields
  else Except.ok { s with products := s.products ++ [id] }

/-- purchase route: truthiness validation of productId, supplierId,
quantity, unitCost; product existence check; balances increase; PURCHASE
transaction append (remaining initialised to quantity); payables increase
with an invoice entry. -/
def purchaseOp (s : St) (productId warehouseId supplierId : Nat)
    (quantity unitCost : ℚ) (reference : Option Nat)
    (txId timestamp name : Nat) : Except Err St :=
  if productId = 0 ∨ supplierId = 0 ∨ quantity = 0 ∨ unitCost = 0 then
    Except.error Err.missingFields
  else if productId ∉ s.products then Except.error Err.invalidProduct
  else
    let bal := getBal s.balances productId warehouseId
    let balances2 := setBal s.balances productId warehouseId (bal + quantity)
    let tx : Tx :=
      mkPurchaseTx productId warehouseId supplierId quantity unitCost reference
        txId timestamp name
    let p2 : Payable :=
      purchasePayable (getPayable s.payables supplierId) quantity unitCost
        reference txId timestamp
    Except.ok { s with
      balances := balances2
      ledger := s.ledger ++ [tx]
      payables := setPayable s.payables supplierId p2 }

/-- payables/pay route: truthiness validation; reject a supplier with no
payable record; subtract the amount, clamping a negative result to 0;
append a payment entry. -/
def payOp (s : St) (supplierId : Nat) (amount : ℚ) (reference : Option Nat)
    (payId timestamp : Nat) : Except Err St :=
  if supplierId = 0 ∨ amount = 0 then Except.error Err.missingFields
  else
    match getPayable s.payables supplierId with
    | none => Except.error Err.noPayable
    | some p =>
      Except.ok { s with
        payables := setPayable s.payables supplierId
          (paidPayable p amount reference payId timestamp) }

/-- sale route: truthiness validation; availability check against the
balance projection (error insufficient stock carrying the available
quantity); cost computation by the selected method (a costing throw is
caught and surfaced as an internal error); SALE transaction append; balance
decrement computed from the availability read at the start; FIFO lot
consumption over the name-sorted directory. -/
def saleOp (s : St) (productId warehouseId : Nat) (quantity unitPrice : ℚ)
    (method : Method) (txId timestamp name : Nat) : Except Err St :=
  if productId = 0 ∨ quantity = 0 ∨ unitPrice = 0 then
    Except.error Err.missingFields
  else
    let bal := getBal s.balances productId warehouseId
    if bal < quantity then Except.error (Err.insufficientStock bal)
    else
      let cogsE :=
        match method with
        | Method.FIFO => computeCOGS_FIFO s.ledger productId warehouseId quantity
        | Method.AVG => computeCOGS_Avg s.ledger productId warehouseId quantity
      match cogsE with
      | Except.error msg => Except.error (Err.internal msg)
      | Except.ok cogs =>
        let tx : Tx :=
          mkSaleTx productId warehouseId quantity unitPrice cogs txId timestamp name
        let ledger1 := s.ledger ++ [tx]
        let balances2 := setBal s.balances productId warehouseId (bal - quantity)
        let ledger2 :=
          match method with
          | Method.FIFO => saleConsume productId warehouseId quantity ledger1
          | Method.AVG => ledger1
        Except.ok { s with ledger := ledger2, balances := balances2 }

/-- Express-style wrapper: a handler that rejects a request leaves the
store untouched (in the source every error exit of these handlers happens
before the first write). -/
def runOp (s : St) (r : Except Err St) : St × Option Err :=
  match r with
  | Except.ok s2 => (s2, none)
  | Except.error e => (s, some e)

/-! ## Derived notions used by the specification claims -/

/-- Contribution of one ledger entry to the replayed balance of a
(product, warehouse) pair: purchases add their quantity, sales subtract
theirs, entries of other pairs contribute nothing. -/
def txDelta (p w : Nat) (tx : Tx) : ℚ :=
  if tx.productId = p ∧ tx.warehouseId = w then
    match tx.type with
    | TxType.PURCHASE => tx.quantity
    | TxType.SALE => - tx.quantity
  else 0

/-- Full-ledger replay of the balance of a (product, warehouse) pair. -/
def ledgerBalance (p w : Nat) (l : List Tx) : ℚ :=
  (l.map (txDelta p w)).sum

/-- Total available lot quantity of a (product, warehouse) pair:
sum of remaining-or-quantity over its PURCHASE entries. -/
def sumAvail (p w : Nat) (l : List Tx) : ℚ :=
  ((l.filter (fun tx => matchesBatch p w tx)).map avail).sum

/-- Two transaction records carrying the same content except possibly for
the mutable remaining field. -/
def SameCore (a b : Tx) : Prop :=
  b = { a with remaining := b.remaining }

/-- Total cost of the units drained from each lot between two pointwise
corresponding directory listings, each lot priced at its own unit cost. -/
def consumedCost (pre post : List Tx) : ℚ :=
  (List.zipWith (fun a b => (avail a - avail b) * a.unitCost) pre post).sum

/-- Modelled from the spec: the FIFO walk as worded in section 4.4 — walk
the entries in order; for each, take min(remaining-or-quantity, stillNeeded)
units at that entry's unit cost, accumulate cost, decrement the running
need, stopping when the need reaches zero.  Returns (accumulated cost,
need left over). -/
def fifoSpecWalk : List Tx → ℚ → ℚ × ℚ
  | [], need => (0, need)
  | b :: bs, need =>
    if need = 0 then (0, 0)
    else
      let t := min (avail b) need
      let r := fifoSpecWalk bs (need - t)
      (t * b.unitCost + r.1, r.2)

/-- Modelled from the spec: FIFO cost of goods sold as worded in section
4.4 — the walk's accumulated cost, failing with the insufficient-stock
condition when the walk cannot cover the requested quantity. -/
def specFifoCOGS (batches : List Tx) (qty : ℚ) : Except String ℚ :=
  let r := fifoSpecWalk batches qty
  if r.2 = 0 then Except.ok r.1 else Except.error "Insufficient stock for FIFO"

/-! ## Transaction file names (writeTransaction) -/

/-- Decimal digits of a natural number, most significant first. -/
def decimalDigitsBE (n : Nat) : List Nat :=
  (Nat.digits 10 n).reverse

/-- Decimal rendering of a natural number as characters, as produced by
JS template interpolation of Date.now(). -/
def decimalChars (n : Nat) : List Char :=
  if n = 0 then ['0'] else (decimalDigitsBE n).map Nat.digitChar

/-- File name written by writeTransaction for a transaction created at the
given Date.now() timestamp with the given uuidv4 suffix: the character
sequence of the string timestamp_uuid.json. -/
def txFileName (timestamp : Nat) (uuid : List Char) : List Char :=
  decimalChars timestamp ++ '_' :: (uuid ++ ".json".toList)

/-- Lexicographic order on file names (character-by-character). -/
def FileNameLt (a b : List Char) : Prop :=
  List.Lex (fun c d => c < d) a b

/-! ## Interleaved sales (cooperative scheduling at storage suspension points)

The sale route suspends at every storage access.  The schedule embedded
below is: request A runs its unlocked balances read (getBalances), its
availability check and its cost computation (average costing, which reads
only the transaction directory); request B then runs the whole sale route
to completion; A resumes with writeTransaction and saveBalances, writing
the balances object it read before B ran, mutated only at its own key.
The per-file lock appears in this schedule exactly as in the source: it
guards each single atomic write, not the check-compute-write sequence. -/

/-- Two average-costed sales of the same (product, warehouse) pair
interleaved as described above; none when either request errors. -/
def raceTwoAvgSales (s : St) (productId warehouseId : Nat)
    (q1 price1 q2 price2 : ℚ) (id1 ts1 nm1 id2 ts2 nm2 : Nat) : Option St :=
  if productId = 0 ∨ q1 = 0 ∨ price1 = 0 then none
  else
    let balA := getBal s.balances productId warehouseId
    if balA < q1 then none
    else
      match computeCOGS_Avg s.ledger productId warehouseId q1 with
      | Except.error _ => none
      | Except.ok cogsA =>
        match saleOp s productId warehouseId q2 price2 Method.AVG id2 ts2 nm2 with
        | Except.error _ => none
        | Except.ok sB =>
          let txA := mkSaleTx productId warehouseId q1 price1 cogsA id1 ts1 nm1
          some { sB with
            ledger := sB.ledger ++ [txA]
            balances := setBal s.balances productId warehouseId (balA - q1) }

/-! ## Request sequences -/

/-- A file name never used by an earlier transaction (uuidv4 file names
never collide; a collision would overwrite an existing file). -/
def NewName (s : St) (name : Nat) : Prop :=
  ∀ tx ∈ s.ledger, tx.name ≠ name

/-- A creation instant strictly after every earlier transaction, with a
file name sorting strictly after every earlier file name (the regime in
which Date.now() has advanced between writes). -/
def NewFile (s : St) (timestamp name : Nat) : Prop :=
  ∀ tx ∈ s.ledger, tx.timestamp < timestamp ∧ tx.name < name

/-- One committed mutating request, with any payload the route handlers
accept. -/
inductive Step : St → St → Prop where
  | createProduct (s s2 : St) (id name : Nat)
      (h : createProductOp s id name = Except.ok s2) : Step s s2
  | purchase (s s2 : St) (productId warehouseId supplierId : Nat)
      (quantity unitCost : ℚ) (reference : Option Nat)
      (txId timestamp name : Nat) (hname : NewName s name)
      (h : purchaseOp s productId warehouseId supplierId quantity unitCost
        reference txId timestamp name = Except.ok s2) : Step s s2
  | sale (s s2 : St) (productId warehouseId : Nat) (quantity unitPrice : ℚ)
      (method : Method) (txId timestamp name : Nat) (hname : NewName s name)
      (h : saleOp s productId warehouseId quantity unitPrice method
        txId timestamp name = Except.ok s2) : Step s s2
  | pay (s s2 : St) (supplierId : Nat) (amount : ℚ) (reference : Option Nat)
      (payId timestamp : Nat)
      (h : payOp s supplierId amount reference payId timestamp = Except.ok s2) :
      Step s s2

/-- States reachable from the empty store by committed requests. -/
inductive Reach : St → Prop where
  | init : Reach initSt
  | step (s s2 : St) (h1 : Reach s) (h2 : Step s s2) : Reach s2

/-- One committed mutating request whose quantities are positive unit
counts and whose transaction file (if any) is created strictly after every
earlier one. -/
inductive GStep : St → St → Prop where
  | createProduct (s s2 : St) (id name : Nat)
      (h : createProductOp s id name = Except.ok s2) : GStep s s2
  | purchase (s s2 : St) (productId warehouseId supplierId : Nat)
      (quantity unitCost : ℚ) (reference : Option Nat)
      (txId timestamp name : Nat)
      (hq : 0 < quantity) (hc : 0 < unitCost) (hnew : NewFile s timestamp name)
      (h : purchaseOp s productId warehouseId supplierId quantity unitCost
        reference txId timestamp name = Except.ok s2) : GStep s s2
  | sale (s s2 : St) (productId warehouseId : Nat) (quantity unitPrice : ℚ)
      (method : Method) (txId timestamp name : Nat)
      (hq : 0 < quantity) (hp : 0 < unitPrice) (hnew : NewFile s timestamp name)
      (h : saleOp s productId warehouseId quantity unitPrice method
        txId timestamp name = Except.ok s2) : GStep s s2
  | pay (s s2 : St) (supplierId : Nat) (amount : ℚ) (reference : Option Nat)
      (payId timestamp : Nat) (ha : 0 < amount)
      (h : payOp s supplierId amount reference payId timestamp = Except.ok s2) :
      GStep s s2

/-- States reachable from the empty store by well-formed committed
requests. -/
inductive GReach : St → Prop where
  | init : GReach initSt
  | step (s s2 : St) (h1 : GReach s) (h2 : GStep s s2) : GReach s2

/-! ## Store-level lemmas -/

theorem lookup_filter_ne {α β : Type} [DecidableEq α] [BEq α] [LawfulBEq α]
    (l : List (α × β)) (k k0 : α) (h : k ≠ k0) :
    (l.filter (fun kv => kv.1 ≠ k0)).lookup k = l.lookup k := by
  induction l with
  | nil => rfl
  | cons a t ih =>
    rcases a with ⟨a1, a2⟩
    by_cases ha : a1 = k0
    · have hf : (decide ((a1, a2).1 ≠ k0)) = false := by simp [ha]
      have hk : (k == a1) = false := by
        simp only [beq_eq_false_iff_ne]
        intro hc; exact h (hc.trans ha)
      simp only [List.filter_cons, hf, if_false, List.lookup, hk]
      exact ih
    · have hf : (decide ((a1, a2).1 ≠ k0)) = true := by simp [ha]
      simp only [List.filter_cons, hf, if_true, List.lookup]
      rcases hk : (k == a1) with _ | _
      · exact ih
      · rfl

theorem lookup_cons_ne {α β : Type} [BEq α] [LawfulBEq α] (k a : α) (b : β)
    (t : List (α × β)) (h : k ≠ a) :
    List.lookup k ((a, b) :: t) = List.lookup k t := by
  have hb : (k == a) = false := by simp only [beq_eq_false_iff_ne]; exact h
  simp only [List.lookup, hb]

theorem getBal_setBal_self (bs : List ((Nat × Nat) × ℚ)) (p w : Nat) (v : ℚ) :
    getBal (setBal bs p w v) p w = v := by
  simp [getBal, setBal, List.lookup]

theorem getBal_setBal_other (bs : List ((Nat × Nat) × ℚ)) (p w p2 w2 : Nat)
    (v : ℚ) (h : (p2, w2) ≠ (p, w)) :
    getBal (setBal bs p w v) p2 w2 = getBal bs p2 w2 := by
  unfold getBal setBal
  rw [lookup_cons_ne _ _ _ _ h, lookup_filter_ne bs (p2, w2) (p, w) h]

theorem getPayable_setPayable_self (ps : List (Nat × Payable)) (sid : Nat)
    (v : Payable) : getPayable (setPayable ps sid v) sid = some v := by
  simp [getPayable, setPayable, List.lookup]

theorem getPayable_setPayable_other (ps : List (Nat × Payable)) (sid sid2 : Nat)
    (v : Payable) (h : sid2 ≠ sid) :
    getPayable (setPayable ps sid v) sid2 = getPayable ps sid2 := by
  unfold getPayable setPayable
  rw [lookup_cons_ne _ _ _ _ h, lookup_filter_ne ps sid2 sid h]

/-! ## Handler characterisations -/

theorem createProductOp_ok {s s2 : St} {id name : Nat}
    (h : createProductOp s id name = Except.ok s2) :
    name ≠ 0 ∧ s2 = { s with products := s.products ++ [id] } := by
  unfold createProductOp at h
  split_ifs at h with h1
  exact ⟨h1, (Except.ok.injEq _ _).mp h |>.symm⟩

theorem purchaseOp_ok {s s2 : St} {pid wid sid : Nat} {q c : ℚ}
    {ref : Option Nat} {tid ts nm : Nat}
    (h : purchaseOp s pid wid sid q c ref tid ts nm = Except.ok s2) :
    pid ≠ 0 ∧ sid ≠ 0 ∧ q ≠ 0 ∧ c ≠ 0 ∧ pid ∈ s.products ∧
    s2 = { s with
      balances := setBal s.balances pid wid (getBal s.balances pid wid + q)
      ledger := s.ledger ++ [mkPurchaseTx pid wid sid q c ref tid ts nm]
      payables := setPayable s.payables sid
        (purchasePayable (getPayable s.payables sid) q c ref tid ts) } := by
  unfold purchaseOp at h
  split_ifs at h with h1 h2
  push_neg at h1
  refine ⟨h1.1, h1.2.1, h1.2.2.1, h1.2.2.2, h2, ?_⟩
  exact (Except.ok.inj h).symm

theorem payOp_ok {s s2 : St} {sid : Nat} {amt : ℚ} {ref : Option Nat}
    {payId ts : Nat}
    (h : payOp s sid amt ref payId ts = Except.ok s2) :
    sid ≠ 0 ∧ amt ≠ 0 ∧ ∃ p, getPayable s.payables sid = some p ∧
      s2 = { s with
        payables := setPayable s.payables sid (paidPayable p amt ref payId ts) } := by
  unfold payOp at h
  split_ifs at h with h1
  push_neg at h1
  refine ⟨h1.1, h1.2, ?_⟩
  rcases hp : getPayable s.payables sid with _ | p
  · rw [hp] at h; cases h
  · rw [hp] at h
    exact ⟨p, rfl, (Except.ok.inj h).symm⟩

theorem saleOp_fifo_ok {s s2 : St} {pid wid : Nat} {q price : ℚ}
    {tid ts nm : Nat}
    (h : saleOp s pid wid q price Method.FIFO tid ts nm = Except.ok s2) :
    pid ≠ 0 ∧ q ≠ 0 ∧ price ≠ 0 ∧ q ≤ getBal s.balances pid wid ∧
    ∃ cogs,
      computeCOGS_FIFO s.ledger pid wid q = Except.ok cogs ∧
      s2 = { s with
        ledger := saleConsume pid wid q
          (s.ledger ++ [mkSaleTx pid wid q price cogs tid ts nm])
        balances := setBal s.balances pid wid (getBal s.balances pid wid - q) } := by
  simp only [saleOp] at h
  split_ifs at h with h1 h2
  push_neg at h1
  refine ⟨h1.1, h1.2.1, h1.2.2, not_lt.mp h2, ?_⟩
  rcases hc : computeCOGS_FIFO s.ledger pid wid q with msg | cogs
  · rw [hc] at h; cases h
  · rw [hc] at h
    exact ⟨cogs, rfl, (Except.ok.inj h).symm⟩

theorem saleOp_avg_ok {s s2 : St} {pid wid : Nat} {q price : ℚ}
    {tid ts nm : Nat}
    (h : saleOp s pid wid q price Method.AVG tid ts nm = Except.ok s2) :
    pid ≠ 0 ∧ q ≠ 0 ∧ price ≠ 0 ∧ q ≤ getBal s.balances pid wid ∧
    ∃ cogs,
      computeCOGS_Avg s.ledger pid wid q = Except.ok cogs ∧
      s2 = { s with
        ledger := s.ledger ++ [mkSaleTx pid wid q price cogs tid ts nm]
        balances := setBal s.balances pid wid (getBal s.balances pid wid - q) } := by
  simp only [saleOp] at h
  split_ifs at h with h1 h2
  push_neg at h1
  refine ⟨h1.1, h1.2.1, h1.2.2, not_lt.mp h2, ?_⟩
  rcases hc : computeCOGS_Avg s.ledger pid wid q with msg | cogs
  · rw [hc] at h; cases h
  · rw [hc] at h
    exact ⟨cogs, rfl, (Except.ok.inj h).symm⟩

theorem purchaseOp_rejects_zero (s : St) (pid wid sid : Nat) (q c : ℚ)
    (ref : Option Nat) (tid ts nm : Nat) (h : q = 0 ∨ c = 0) :
    purchaseOp s pid wid sid q c ref tid ts nm = Except.error Err.missingFields := by
  unfold purchaseOp
  rcases h with h | h <;> rw [if_pos] <;> tauto

theorem saleOp_rejects_zero (s : St) (pid wid : Nat) (q price : ℚ)
    (m : Method) (tid ts nm : Nat) (h : q = 0 ∨ price = 0) :
    saleOp s pid wid q price m tid ts nm = Except.error Err.missingFields := by
  unfold saleOp
  rcases h with h | h <;> rw [if_pos] <;> tauto

theorem saleOp_insufficient (s : St) (pid wid : Nat) (q price : ℚ)
    (m : Method) (tid ts nm : Nat)
    (hp : pid ≠ 0) (hq : q ≠ 0) (hprice : price ≠ 0)
    (hb : getBal s.balances pid wid < q) :
    saleOp s pid wid q price m tid ts nm =
      Except.error (Err.insufficientStock (getBal s.balances pid wid)) := by
  unfold saleOp
  rw [if_neg (by tauto)]
  simp only []
  rw [if_pos hb]

theorem payOp_no_record (s : St) (sid : Nat) (amt : ℚ) (ref : Option Nat)
    (payId ts : Nat) (hs : sid ≠ 0) (ha : amt ≠ 0)
    (hnone : getPayable s.payables sid = none) :
    payOp s sid amt ref payId ts = Except.error Err.noPayable := by
  unfold payOp
  rw [if_neg (by tauto), hnone]

/-! ## Core-content preservation and availability accounting -/

theorem sameCore_refl (a : Tx) : SameCore a a := rfl

theorem sameCore_name {a b : Tx} (h : SameCore a b) : b.name = a.name := by
  rw [h]

theorem sameCore_timestamp {a b : Tx} (h : SameCore a b) :
    b.timestamp = a.timestamp := by
  rw [h]

theorem sameCore_quantity {a b : Tx} (h : SameCore a b) :
    b.quantity = a.quantity := by
  rw [h]

theorem sameCore_type {a b : Tx} (h : SameCore a b) : b.type = a.type := by
  rw [h]

theorem sameCore_unitCost {a b : Tx} (h : SameCore a b) :
    b.unitCost = a.unitCost := by
  rw [h]

theorem sameCore_unitPrice {a b : Tx} (h : SameCore a b) :
    b.unitPrice = a.unitPrice := by
  rw [h]

theorem sameCore_matches {a b : Tx} (h : SameCore a b) (p w : Nat) :
    matchesBatch p w b ↔ matchesBatch p w a := by
  rw [h]; exact Iff.rfl

theorem sameCore_txDelta {a b : Tx} (h : SameCore a b) (p w : Nat) :
    txDelta p w b = txDelta p w a := by
  rw [h]; rfl

theorem sumAvail_nil (p w : Nat) : sumAvail p w [] = 0 := rfl

theorem sumAvail_cons (p w : Nat) (tx : Tx) (l : List Tx) :
    sumAvail p w (tx :: l) =
      (if matchesBatch p w tx then avail tx else 0) + sumAvail p w l := by
  unfold sumAvail
  by_cases h : matchesBatch p w tx
  · simp [List.filter_cons, h]
  · simp [List.filter_cons, h]

theorem sumAvail_append (p w : Nat) (l1 l2 : List Tx) :
    sumAvail p w (l1 ++ l2) = sumAvail p w l1 + sumAvail p w l2 := by
  unfold sumAvail
  rw [List.filter_append, List.map_append, List.sum_append]

theorem sumAvail_nonneg (p w : Nat) (l : List Tx)
    (h : ∀ tx ∈ l, matchesBatch p w tx → 0 ≤ avail tx) :
    0 ≤ sumAvail p w l := by
  induction l with
  | nil => exact le_refl 0
  | cons tx l ih =>
    rw [sumAvail_cons]
    have h2 : 0 ≤ sumAvail p w l :=
      ih (fun a ha m => h a (List.mem_cons_of_mem _ ha) m)
    by_cases hm : matchesBatch p w tx
    · rw [if_pos hm]
      exact add_nonneg (h tx (List.mem_cons_self _ _) hm) h2
    · rw [if_neg hm, zero_add]
      exact h2

theorem ledgerBalance_nil (p w : Nat) : ledgerBalance p w [] = 0 := rfl

theorem ledgerBalance_append (p w : Nat) (l1 l2 : List Tx) :
    ledgerBalance p w (l1 ++ l2) = ledgerBalance p w l1 + ledgerBalance p w l2 := by
  unfold ledgerBalance
  rw [List.map_append, List.sum_append]

theorem txDelta_mkPurchaseTx (p w pid wid sid : Nat) (q c : ℚ)
    (ref : Option Nat) (tid ts nm : Nat) :
    txDelta p w (mkPurchaseTx pid wid sid q c ref tid ts nm) =
      if pid = p ∧ wid = w then q else 0 := rfl

theorem txDelta_mkSaleTx (p w pid wid : Nat) (q price cogs : ℚ)
    (tid ts nm : Nat) :
    txDelta p w (mkSaleTx pid wid q price cogs tid ts nm) =
      if pid = p ∧ wid = w then -q else 0 := rfl

theorem avail_mkPurchaseTx (pid wid sid : Nat) (q c : ℚ)
    (ref : Option Nat) (tid ts nm : Nat) :
    avail (mkPurchaseTx pid wid sid q c ref tid ts nm) = q := rfl

theorem matchesBatch_mkSaleTx (p w pid wid : Nat) (q price cogs : ℚ)
    (tid ts nm : Nat) :
    ¬ matchesBatch p w (mkSaleTx pid wid q price cogs tid ts nm) := by
  intro hc
  exact TxType.noConfusion hc.1

theorem consumedCost_nil : consumedCost [] [] = 0 := rfl

theorem consumedCost_cons (a b : Tx) (l1 l2 : List Tx) :
    consumedCost (a :: l1) (b :: l2) =
      (avail a - avail b) * a.unitCost + consumedCost l1 l2 := by
  unfold consumedCost
  rw [List.zipWith_cons_cons, List.sum_cons]

theorem consumedCost_self (l : List Tx) : consumedCost l l = 0 := by
  induction l with
  | nil => rfl
  | cons a l ih => rw [consumedCost_cons, ih, sub_self, zero_mul, zero_add]

theorem consumeFiles_sameCore (p w : Nat) :
    ∀ (rtc : ℚ) (l : List Tx),
      List.Forall₂ SameCore l (consumeFiles p w rtc l) := by
  intro rtc l
  induction l generalizing rtc with
  | nil => exact List.Forall₂.nil
  | cons tx rest ih =>
    unfold consumeFiles
    by_cases hm : matchesBatch p w tx
    · rw [if_pos hm]
      by_cases hr : avail tx ≤ 0
      · rw [if_pos hr]
        exact List.Forall₂.cons (sameCore_refl tx) (ih rtc)
      · rw [if_neg hr]
        by_cases hz : rtc - min (avail tx) rtc = 0
        · rw [if_pos hz]
          exact List.Forall₂.cons rfl (List.forall₂_same.mpr fun a _ => sameCore_refl a)
        · rw [if_neg hz]
          exact List.Forall₂.cons rfl
            (ih (rtc - min (avail tx) rtc))
    · rw [if_neg hm]
      exact List.Forall₂.cons (sameCore_refl tx) (ih rtc)

theorem consumeFiles_nil (p w : Nat) (rtc : ℚ) : consumeFiles p w rtc [] = [] := rfl

theorem consumeFiles_cons_nomatch (p w : Nat) (rtc : ℚ) (tx : Tx)
    (rest : List Tx) (hm : ¬ matchesBatch p w tx) :
    consumeFiles p w rtc (tx :: rest) = tx :: consumeFiles p w rtc rest := by
  simp only [consumeFiles]
  rw [if_neg hm]

theorem consumeFiles_cons_skip (p w : Nat) (rtc : ℚ) (tx : Tx)
    (rest : List Tx) (hm : matchesBatch p w tx) (hr : avail tx ≤ 0) :
    consumeFiles p w rtc (tx :: rest) = tx :: consumeFiles p w rtc rest := by
  simp only [consumeFiles]
  rw [if_pos hm, if_pos hr]

theorem consumeFiles_cons_stop (p w : Nat) (rtc : ℚ) (tx : Tx)
    (rest : List Tx) (hm : matchesBatch p w tx) (hr : ¬ avail tx ≤ 0)
    (hz : rtc - min (avail tx) rtc = 0) :
    consumeFiles p w rtc (tx :: rest) =
      { tx with remaining := some (avail tx - min (avail tx) rtc) } :: rest := by
  simp only [consumeFiles]
  rw [if_pos hm, if_neg hr, if_pos hz]

theorem consumeFiles_cons_go (p w : Nat) (rtc : ℚ) (tx : Tx)
    (rest : List Tx) (hm : matchesBatch p w tx) (hr : ¬ avail tx ≤ 0)
    (hz : ¬ rtc - min (avail tx) rtc = 0) :
    consumeFiles p w rtc (tx :: rest) =
      { tx with remaining := some (avail tx - min (avail tx) rtc) } ::
        consumeFiles p w (rtc - min (avail tx) rtc) rest := by
  simp only [consumeFiles]
  rw [if_pos hm, if_neg hr, if_neg hz]

theorem fifoLoop_nil (rem c0 : ℚ) : fifoLoop [] rem c0 = (rem, c0) := rfl

theorem fifoLoop_cons_skip (b : Tx) (bs : List Tx) (rem c0 : ℚ)
    (h : avail b ≤ 0) : fifoLoop (b :: bs) rem c0 = fifoLoop bs rem c0 := by
  simp only [fifoLoop]
  rw [if_pos h]

theorem fifoLoop_cons_stop (b : Tx) (bs : List Tx) (rem c0 : ℚ)
    (h : ¬ avail b ≤ 0) (h2 : rem - min (avail b) rem ≤ 0) :
    fifoLoop (b :: bs) rem c0 =
      (rem - min (avail b) rem, c0 + min (avail b) rem * b.unitCost) := by
  simp only [fifoLoop]
  rw [if_neg h, if_pos h2]

theorem fifoLoop_cons_go (b : Tx) (bs : List Tx) (rem c0 : ℚ)
    (h : ¬ avail b ≤ 0) (h2 : ¬ rem - min (avail b) rem ≤ 0) :
    fifoLoop (b :: bs) rem c0 =
      fifoLoop bs (rem - min (avail b) rem)
        (c0 + min (avail b) rem * b.unitCost) := by
  simp only [fifoLoop]
  rw [if_neg h, if_neg h2]

/-- Relation between a directory listing and its state after one FIFO
consumption pass: content outside remaining is untouched, files of other
pairs are byte-identical, and each affected lot keeps 0 ≤ remaining ≤ its
previous available quantity. -/
def ConsumeRel (p w : Nat) (a b : Tx) : Prop :=
  SameCore a b ∧ (¬ matchesBatch p w a → b = a) ∧
    (matchesBatch p w a → avail b ≤ avail a ∧ 0 ≤ avail b)


theorem avail_set_remaining (tx : Tx) (x : ℚ) :
    avail { tx with remaining := some x } = x := rfl

theorem matchesBatch_set_remaining {p w : Nat} {tx : Tx} (h : matchesBatch p w tx)
    (x : ℚ) : matchesBatch p w { tx with remaining := some x } := h

/-- Joint accounting of the cost walk and the consumption walk over the
same listing: the consumption pass drains exactly min(need, total
available) in listing order; the cost walk over the matching entries of
the same listing leaves exactly need - min(need, total available)
uncovered and its accumulated cost equals the per-lot drained quantities
priced at each lot's own unit cost. -/
theorem consumeFiles_spec (p w : Nat) :
    ∀ (l : List Tx) (rtc c0 : ℚ), 0 ≤ rtc →
      (∀ tx ∈ l, matchesBatch p w tx → 0 ≤ avail tx) →
      List.Forall₂ (ConsumeRel p w) l (consumeFiles p w rtc l) ∧
      sumAvail p w (consumeFiles p w rtc l) =
        sumAvail p w l - min rtc (sumAvail p w l) ∧
      fifoLoop (l.filter (fun tx => matchesBatch p w tx)) rtc c0 =
        (rtc - min rtc (sumAvail p w l),
         c0 + consumedCost l (consumeFiles p w rtc l)) := by
  intro l
  induction l with
  | nil =>
    intro rtc c0 hrtc _
    refine ⟨List.Forall₂.nil, ?_, ?_⟩
    · rw [consumeFiles_nil, sumAvail_nil, min_eq_right hrtc, sub_zero]
    · rw [List.filter_nil, fifoLoop_nil, consumeFiles_nil, consumedCost_nil,
        sumAvail_nil, min_eq_right hrtc, sub_zero, add_zero]
  | cons tx rest ih =>
    intro rtc c0 hrtc hav
    have havrest : ∀ a ∈ rest, matchesBatch p w a → 0 ≤ avail a :=
      fun a ha m => hav a (List.mem_cons_of_mem _ ha) m
    have hSrest : 0 ≤ sumAvail p w rest := sumAvail_nonneg _ _ _ havrest
    by_cases hm : matchesBatch p w tx
    · have h0 : 0 ≤ avail tx := hav tx (List.mem_cons_self _ _) hm
      have hfil : (tx :: rest).filter (fun a => matchesBatch p w a) =
          tx :: rest.filter (fun a => matchesBatch p w a) := by
        simp [List.filter_cons, hm]
      by_cases hr : avail tx ≤ 0
      · -- lot with zero available stock: both walks skip it
        have hz : avail tx = 0 := le_antisymm hr h0
        obtain ⟨ihF, ihS, ihL⟩ := ih rtc c0 hrtc havrest
        rw [consumeFiles_cons_skip p w rtc tx rest hm hr]
        refine ⟨List.Forall₂.cons ⟨sameCore_refl tx, fun _ => rfl,
          fun _ => ⟨le_refl _, h0⟩⟩ ihF, ?_, ?_⟩
        · rw [sumAvail_cons, sumAvail_cons, if_pos hm, hz, zero_add, zero_add,
            ihS]
        · rw [hfil, fifoLoop_cons_skip tx _ rtc c0 hr, consumedCost_cons,
            sub_self, zero_mul, zero_add, sumAvail_cons, if_pos hm, hz,
            zero_add, ihL]
      · -- lot with positive stock
        have hA : 0 < avail tx := lt_of_not_le hr
        have hT0 : 0 ≤ min (avail tx) rtc := le_min (le_of_lt hA) hrtc
        by_cases hzr : rtc - min (avail tx) rtc = 0
        · -- need covered here: both walks stop at this lot
          have htake : min (avail tx) rtc = rtc := by linarith
          have hrle : rtc ≤ avail tx := by
            rcases min_cases (avail tx) rtc with ⟨he, hle⟩ | ⟨he, hle⟩
            · rw [he] at htake; linarith
            · exact le_of_lt hle
          have hminS : min rtc (sumAvail p w (tx :: rest)) = rtc := by
            rw [sumAvail_cons, if_pos hm]
            exact min_eq_left (by linarith)
          rw [consumeFiles_cons_stop p w rtc tx rest hm hr hzr]
          refine ⟨?_, ?_, ?_⟩
          · refine List.Forall₂.cons ⟨rfl, fun hn => absurd hm hn, fun _ => ?_⟩
              (List.forall₂_same.mpr fun a hmem =>
                ⟨sameCore_refl a, fun _ => rfl,
                 fun m => ⟨le_refl _, havrest a hmem m⟩⟩)
            rw [avail_set_remaining]
            constructor
            · linarith
            · rw [htake]; linarith
          · rw [hminS, sumAvail_cons, sumAvail_cons, if_pos hm,
              if_pos (matchesBatch_set_remaining hm _), avail_set_remaining,
              htake]
            ring
          · rw [hfil, fifoLoop_cons_stop tx _ rtc c0 hr (le_of_eq hzr),
              hminS, consumedCost_cons, avail_set_remaining, consumedCost_self,
              htake]
            rw [Prod.mk.injEq]
            constructor
            · rfl
            · ring
        · -- lot drained entirely: both walks continue with the rest
          have htake : min (avail tx) rtc = avail tx := by
            rcases min_cases (avail tx) rtc with ⟨he, hle⟩ | ⟨he, hle⟩
            · exact he
            · rw [he] at hzr; exact absurd (by linarith) hzr
          have hAle : avail tx ≤ rtc := by
            rcases min_cases (avail tx) rtc with ⟨he, hle⟩ | ⟨he, hle⟩
            · exact hle
            · rw [he] at hzr; exact absurd (by linarith) hzr
          have hrtc2 : 0 ≤ rtc - avail tx := by linarith
          obtain ⟨ihF, ihS, ihL⟩ :=
            ih (rtc - avail tx) (c0 + avail tx * tx.unitCost) hrtc2 havrest
          have hminS : min rtc (sumAvail p w (tx :: rest)) =
              avail tx + min (rtc - avail tx) (sumAvail p w rest) := by
            rw [sumAvail_cons, if_pos hm]
            have h1 : avail tx + (rtc - avail tx) = rtc := by ring
            calc min rtc (avail tx + sumAvail p w rest)
                = min (avail tx + (rtc - avail tx))
                    (avail tx + sumAvail p w rest) := by rw [h1]
              _ = avail tx + min (rtc - avail tx) (sumAvail p w rest) :=
                  min_add_add_left _ _ _
          have hgo2 : ¬ rtc - min (avail tx) rtc ≤ 0 := by
            rw [htake]
            intro hc
            exact hzr (by rw [htake]; linarith)
          rw [consumeFiles_cons_go p w rtc tx rest hm hr hzr]
          refine ⟨?_, ?_, ?_⟩
          · refine List.Forall₂.cons ⟨rfl, fun hn => absurd hm hn, fun _ => ?_⟩
              (by rw [htake]; exact ihF)
            rw [avail_set_remaining, htake]
            exact ⟨by linarith, by linarith⟩
          · rw [hminS, sumAvail_cons, sumAvail_cons, if_pos hm,
              if_pos (matchesBatch_set_remaining hm _), avail_set_remaining,
              htake]
            rw [ihS]
            ring
          · rw [hfil, fifoLoop_cons_go tx _ rtc c0 hr hgo2, htake, ihL,
              hminS, consumedCost_cons, avail_set_remaining]
            rw [Prod.mk.injEq]
            constructor
            · ring
            · ring
    · -- file of another pair or a SALE file: untouched by both walks
      obtain ⟨ihF, ihS, ihL⟩ := ih rtc c0 hrtc havrest
      have hfil : (tx :: rest).filter (fun a => matchesBatch p w a) =
          rest.filter (fun a => matchesBatch p w a) := by
        simp [List.filter_cons, hm]
      rw [consumeFiles_cons_nomatch p w rtc tx rest hm]
      refine ⟨List.Forall₂.cons ⟨sameCore_refl tx, fun _ => rfl,
        fun m => absurd m hm⟩ ihF, ?_, ?_⟩
      · rw [sumAvail_cons, sumAvail_cons, if_neg hm, zero_add, zero_add, ihS]
      · rw [hfil, consumedCost_cons, sub_self, zero_mul, zero_add,
          sumAvail_cons, if_neg hm, zero_add, ihL]

/-! ## The costing pipeline against the specification wording -/

/-- Modelled from the spec: weighted-average cost of goods sold as worded
in section 4.4 — sum available and available times unitCost over all
purchase lots of the pair, fail when the total available quantity is below
the request, otherwise price the requested quantity at the average unit
cost. -/
def specAvgCOGS (l : List Tx) (p w : Nat) (qty : ℚ) : Except String ℚ :=
  let F := l.filter (fun tx => matchesBatch p w tx)
  let totalQty := (F.map avail).sum
  let totalCost := (F.map (fun b => avail b * b.unitCost)).sum
  if totalQty < qty then Except.error "Insufficient stock for AVG"
  else Except.ok (qty * (totalCost / totalQty))

theorem fifoSpecWalk_nil (need : ℚ) : fifoSpecWalk [] need = (0, need) := rfl

theorem fifoSpecWalk_cons_zero (b : Tx) (bs : List Tx) :
    fifoSpecWalk (b :: bs) 0 = (0, 0) := by
  simp [fifoSpecWalk]

theorem fifoSpecWalk_cons_pos (b : Tx) (bs : List Tx) (need : ℚ)
    (h : need ≠ 0) :
    fifoSpecWalk (b :: bs) need =
      ((min (avail b) need) * b.unitCost +
        (fifoSpecWalk bs (need - min (avail b) need)).1,
       (fifoSpecWalk bs (need - min (avail b) need)).2) := by
  simp only [fifoSpecWalk]
  rw [if_neg h]

theorem fifoSpecWalk_zero (l : List Tx) : fifoSpecWalk l 0 = (0, 0) := by
  cases l with
  | nil => rfl
  | cons b bs => exact fifoSpecWalk_cons_zero b bs

theorem fifoLoop_eq_specWalk :
    ∀ (l : List Tx) (need c0 : ℚ), 0 ≤ need →
      (∀ tx ∈ l, 0 ≤ avail tx) →
      fifoLoop l need c0 =
        ((fifoSpecWalk l need).2, c0 + (fifoSpecWalk l need).1) := by
  intro l
  induction l with
  | nil =>
    intro need c0 _ _
    rw [fifoLoop_nil, fifoSpecWalk_nil, add_zero]
  | cons b bs ih =>
    intro need c0 hneed hav
    have havb : 0 ≤ avail b := hav b (List.mem_cons_self _ _)
    have havbs : ∀ tx ∈ bs, 0 ≤ avail tx :=
      fun a ha => hav a (List.mem_cons_of_mem _ ha)
    by_cases hz : need = 0
    · subst hz
      rw [fifoSpecWalk_cons_zero, add_zero]
      by_cases ha : avail b ≤ 0
      · rw [fifoLoop_cons_skip _ _ _ _ ha, ih 0 c0 (le_refl 0) havbs,
          fifoSpecWalk_zero, add_zero]
      · have hmin : min (avail b) 0 = 0 := min_eq_right havb
        rw [fifoLoop_cons_stop _ _ _ _ ha (by rw [hmin]; linarith), hmin]
        rw [Prod.mk.injEq]
        exact ⟨by ring, by ring⟩
    · rw [fifoSpecWalk_cons_pos _ _ _ hz]
      by_cases ha : avail b ≤ 0
      · have hab : avail b = 0 := le_antisymm ha havb
        have hmin : min (avail b) need = 0 := by rw [hab]; exact min_eq_left hneed
        rw [fifoLoop_cons_skip _ _ _ _ ha, ih need c0 hneed havbs, hmin]
        rw [Prod.mk.injEq]
        refine ⟨by rw [sub_zero], by rw [sub_zero]; ring⟩
      · have hA : 0 < avail b := lt_of_not_le ha
        have hT0 : 0 ≤ min (avail b) need := le_min (le_of_lt hA) hneed
        have hTle : min (avail b) need ≤ need := min_le_right _ _
        by_cases hstop : need - min (avail b) need ≤ 0
        · have hstop2 : need - min (avail b) need = 0 := le_antisymm hstop (by linarith)
          rw [fifoLoop_cons_stop _ _ _ _ ha hstop, hstop2, fifoSpecWalk_zero]
          rw [Prod.mk.injEq]
          exact ⟨rfl, by ring⟩
        · rw [fifoLoop_cons_go _ _ _ _ ha hstop,
            ih (need - min (avail b) need) _ (by linarith) havbs]
          rw [Prod.mk.injEq]
          exact ⟨rfl, by ring⟩

theorem loadPurchaseBatches_of_sorted (ledger : List Tx) (p w : Nat)
    (hs : ledger.Pairwise (fun a b => a.timestamp < b.timestamp)) :
    loadPurchaseBatches ledger p w =
      ledger.filter (fun tx => matchesBatch p w tx) := by
  unfold loadPurchaseBatches
  apply List.Sorted.insertionSort_eq
  have h2 : (ledger.filter (fun tx => matchesBatch p w tx)).Pairwise
      (fun a b => a.timestamp < b.timestamp) :=
    List.Pairwise.sublist (List.filter_sublist _) hs
  exact h2.imp le_of_lt

theorem fifoSpecWalk_need_nonneg :
    ∀ (l : List Tx) (need : ℚ), 0 ≤ need → 0 ≤ (fifoSpecWalk l need).2 := by
  intro l
  induction l with
  | nil => intro need h; exact h
  | cons b bs ih =>
    intro need h
    by_cases hz : need = 0
    · subst hz; rw [fifoSpecWalk_cons_zero]
    · rw [fifoSpecWalk_cons_pos _ _ _ hz]
      have : min (avail b) need ≤ need := min_le_right _ _
      exact ih _ (by
        rcases le_total (avail b) 0 with h1 | h1
        · have : min (avail b) need ≤ avail b := min_le_left _ _
          rcases le_total 0 (min (avail b) need) with h2 | h2
          · linarith
          · linarith
        · linarith)

theorem computeCOGS_FIFO_spec (ledger : List Tx) (p w : Nat) (qty : ℚ)
    (hs : ledger.Pairwise (fun a b => a.timestamp < b.timestamp))
    (hav : ∀ tx ∈ ledger, matchesBatch p w tx → 0 ≤ avail tx)
    (hq : 0 ≤ qty) :
    computeCOGS_FIFO ledger p w qty =
      specFifoCOGS (ledger.filter (fun tx => matchesBatch p w tx)) qty := by
  unfold computeCOGS_FIFO specFifoCOGS
  rw [loadPurchaseBatches_of_sorted ledger p w hs]
  have havF : ∀ tx ∈ ledger.filter (fun tx => matchesBatch p w tx), 0 ≤ avail tx := by
    intro tx htx
    have h1 := List.mem_of_mem_filter htx
    have h2 := List.of_mem_filter htx
    exact hav tx h1 (of_decide_eq_true h2)
  rw [fifoLoop_eq_specWalk _ qty 0 hq havF]
  have hn := fifoSpecWalk_need_nonneg (ledger.filter (fun tx => matchesBatch p w tx)) qty hq
  by_cases h : (fifoSpecWalk (ledger.filter (fun tx => matchesBatch p w tx)) qty).2 = 0
  · rw [if_neg (by rw [h]; exact lt_irrefl 0), if_pos h, zero_add]
  · rw [if_pos (lt_of_le_of_ne hn (Ne.symm h)), if_neg h]

theorem computeCOGS_Avg_spec (ledger : List Tx) (p w : Nat) (qty : ℚ) :
    computeCOGS_Avg ledger p w qty =
      specAvgCOGS ledger p w qty := by
  simp only [computeCOGS_Avg, specAvgCOGS, loadPurchaseBatches]
  have hperm : List.Perm
      (List.insertionSort (fun a b => a.timestamp ≤ b.timestamp)
        (ledger.filter (fun tx => matchesBatch p w tx)))
      (ledger.filter (fun tx => matchesBatch p w tx)) :=
    List.perm_insertionSort _ _
  rw [(hperm.map avail).sum_eq, (hperm.map (fun b => avail b * b.unitCost)).sum_eq]
  by_cases h : ((ledger.filter (fun tx => matchesBatch p w tx)).map avail).sum < qty
  · rw [if_pos h, if_pos h]
  · rw [if_neg h, if_neg h, mul_comm]

/-! ## Writing the consumed lots back into the directory -/

theorem find?_name_of_nodup :
    ∀ (c : List Tx) (u : Tx), u ∈ c → (c.map (fun tx => tx.name)).Nodup →
      c.find? (fun v => v.name == u.name) = some u := by
  intro c
  induction c with
  | nil => intro u hu; cases hu
  | cons y c2 ih =>
    intro u hu hnd
    rcases List.mem_cons.mp hu with he | hm
    · subst he
      rw [List.find?_cons_of_pos _ (by simp)]
    · have hy : y.name ≠ u.name := by
        intro hc
        have : u.name ∈ c2.map (fun tx => tx.name) :=
          List.mem_map.mpr ⟨u, hm, rfl⟩
        rw [← hc] at this
        exact (List.nodup_cons.mp hnd).1 this
      rw [List.find?_cons_of_neg _ (by simp [hy]),
        ih u hm (List.nodup_cons.mp hnd).2]

theorem forall₂_names {l c : List Tx} (h : List.Forall₂ SameCore l c) :
    c.map (fun tx => tx.name) = l.map (fun tx => tx.name) := by
  induction h with
  | nil => rfl
  | cons hab habs ih =>
    simp only [List.map_cons, ih, sameCore_name hab]

theorem forall₂_mem_left {R : Tx → Tx → Prop} :
    ∀ {l c : List Tx}, List.Forall₂ R l c → ∀ {a : Tx}, a ∈ l →
      ∃ b ∈ c, R a b := by
  intro l c h
  induction h with
  | nil => intro a ha; cases ha
  | cons hab habs ih =>
    intro a ha
    rcases List.mem_cons.mp ha with he | hm
    · subst he
      exact ⟨_, List.mem_cons_self _ _, hab⟩
    · obtain ⟨b, hb, hab2⟩ := ih hm
      exact ⟨b, List.mem_cons_of_mem _ hb, hab2⟩

theorem mapback_eq :
    ∀ (l c : List Tx),
      List.Forall₂ (fun a b => a.name = b.name) l c →
      (l.map (fun tx => tx.name)).Nodup →
      l.map (fun tx => (c.find? (fun u => u.name == tx.name)).getD tx) = c := by
  intro l c h
  induction h with
  | nil => intro _; rfl
  | cons hab habs ih =>
    rename_i x y l2 c2
    intro hnd
    have hfind : (y :: c2).find? (fun u => u.name == x.name) = some y := by
      rw [List.find?_cons_of_pos _ (by simp [hab])]
    rw [List.map_cons, hfind]
    have htail : ∀ a ∈ l2,
        ((y :: c2).find? (fun u => u.name == a.name)).getD a =
          (c2.find? (fun u => u.name == a.name)).getD a := by
      intro a ha
      have hne : y.name ≠ a.name := by
        intro hc
        have h1 : a.name ∈ l2.map (fun tx => tx.name) :=
          List.mem_map.mpr ⟨a, ha, rfl⟩
        rw [← hc, ← hab] at h1
        exact (List.nodup_cons.mp hnd).1 h1
      rw [List.find?_cons_of_neg _ (by simp [hne])]
    rw [Option.getD_some, List.map_congr_left htail,
      ih (List.nodup_cons.mp hnd).2]

theorem saleConsume_of_sorted (p w : Nat) (qty : ℚ) (l : List Tx)
    (hs : l.Pairwise (fun a b => a.name < b.name)) :
    saleConsume p w qty l = consumeFiles p w qty l := by
  unfold saleConsume
  have hsorted : List.insertionSort (fun a b => a.name ≤ b.name) l = l :=
    List.Sorted.insertionSort_eq (hs.imp (fun h => le_of_lt h))
  rw [hsorted]
  have hnd : (l.map (fun tx => tx.name)).Nodup := by
    unfold List.Nodup
    rw [List.pairwise_map]
    exact hs.imp (fun h => ne_of_lt h)
  exact mapback_eq l (consumeFiles p w qty l)
    ((consumeFiles_sameCore p w qty l).imp
      (fun a b hab => (sameCore_name hab).symm))
    hnd

theorem forall₂_mem_right {R : Tx → Tx → Prop} :
    ∀ {l c : List Tx}, List.Forall₂ R l c → ∀ {b : Tx}, b ∈ c →
      ∃ a ∈ l, R a b := by
  intro l c h
  induction h with
  | nil => intro b hb; cases hb
  | cons hab habs ih =>
    intro b hb
    rcases List.mem_cons.mp hb with he | hm
    · subst he
      exact ⟨_, List.mem_cons_self _ _, hab⟩
    · obtain ⟨a, ha, hab2⟩ := ih hm
      exact ⟨a, List.mem_cons_of_mem _ ha, hab2⟩

theorem saleConsume_sameCore (p w : Nat) (qty : ℚ) (l : List Tx)
    (hnd : (l.map (fun tx => tx.name)).Nodup) :
    List.Forall₂ SameCore l (saleConsume p w qty l) := by
  unfold saleConsume
  have hperm : List.Perm
      (List.insertionSort (fun a b => a.name ≤ b.name) l) l :=
    List.perm_insertionSort _ _
  have hF := consumeFiles_sameCore p w qty
    (List.insertionSort (fun a b => a.name ≤ b.name) l)
  have hndc : ((consumeFiles p w qty
      (List.insertionSort (fun a b => a.name ≤ b.name) l)).map
        (fun tx => tx.name)).Nodup := by
    rw [forall₂_names hF]
    exact ((hperm.map (fun tx => tx.name)).nodup_iff).mpr hnd
  rw [List.forall₂_map_right_iff]
  apply List.forall₂_same.mpr
  intro tx htx
  have htx2 : tx ∈ List.insertionSort (fun a b => a.name ≤ b.name) l :=
    (hperm.mem_iff).mpr htx
  obtain ⟨b, hb, hab⟩ := forall₂_mem_left hF htx2
  have hname : b.name = tx.name := sameCore_name hab
  have hfind := find?_name_of_nodup _ b hb hndc
  rw [hname] at hfind
  rw [hfind]
  exact hab

/-- Transport of the creation-order chain along a consumption pass: the
pass rewrites remaining only, so timestamps and names keep their strict
order. -/
theorem pairwise_order_transport :
    ∀ {l c : List Tx}, List.Forall₂ SameCore l c →
      l.Pairwise (fun a b => a.timestamp < b.timestamp ∧ a.name < b.name) →
      c.Pairwise (fun a b => a.timestamp < b.timestamp ∧ a.name < b.name) := by
  intro l c h
  induction h with
  | nil => intro _; exact List.Pairwise.nil
  | cons hab habs ih =>
    rename_i x y l2 c2
    intro hp
    rcases List.pairwise_cons.mp hp with ⟨hx, hl2⟩
    refine List.pairwise_cons.mpr ⟨?_, ih hl2⟩
    intro b2 hb2
    obtain ⟨a2, ha2, hab2⟩ := forall₂_mem_right habs hb2
    have h1 := hx a2 ha2
    rw [sameCore_timestamp hab, sameCore_name hab,
      sameCore_timestamp hab2, sameCore_name hab2]
    exact h1

theorem ledgerBalance_forall₂ {l c : List Tx}
    (h : List.Forall₂ SameCore l c) (p w : Nat) :
    ledgerBalance p w c = ledgerBalance p w l := by
  unfold ledgerBalance
  induction h with
  | nil => rfl
  | cons hab habs ih =>
    rw [List.map_cons, List.map_cons, List.sum_cons, List.sum_cons, ih,
      sameCore_txDelta hab]

/-- Files of every other (product, warehouse) pair are untouched by a
consumption pass for a given pair. -/
theorem sumAvail_other_key {p w : Nat} :
    ∀ {l c : List Tx}, List.Forall₂ (ConsumeRel p w) l c →
      ∀ (p2 w2 : Nat), (p2, w2) ≠ (p, w) →
        sumAvail p2 w2 c = sumAvail p2 w2 l := by
  intro l c h
  induction h with
  | nil => intro _ _ _; rfl
  | cons hab habs ih =>
    rename_i x y l2 c2
    intro p2 w2 hne
    rw [sumAvail_cons, sumAvail_cons, ih p2 w2 hne]
    rcases hab with ⟨hcore, hnomatch, _⟩
    by_cases hm2 : matchesBatch p2 w2 x
    · have hnm : ¬ matchesBatch p w x := by
        intro hc
        exact hne (by
          rcases hm2 with ⟨_, hp2, hw2⟩
          rcases hc with ⟨_, hp, hw⟩
          rw [← hp2, ← hw2, hp, hw])
      rw [hnomatch hnm]
    · have hm2y : ¬ matchesBatch p2 w2 y := by
        rw [sameCore_matches hcore]
        exact hm2
      rw [if_neg hm2, if_neg hm2y]

/-! ## Invariants of reachable stores -/

/-- Invariant maintained by every committed request, whatever payload the
handlers accept: transaction file names are unique, the stored balance of
every pair equals the full-ledger replay, and no recorded transaction has
a zero quantity, a PURCHASE a zero unit cost, or a SALE a zero unit
price. -/
def RawInv (s : St) : Prop :=
  (s.ledger.map (fun tx => tx.name)).Nodup ∧
  (∀ p w, getBal s.balances p w = ledgerBalance p w s.ledger) ∧
  (∀ tx ∈ s.ledger, tx.quantity ≠ 0 ∧
    (tx.type = TxType.PURCHASE → tx.unitCost ≠ 0) ∧
    (tx.type = TxType.SALE → tx.unitPrice ≠ 0))

theorem rawInv_init : RawInv initSt := by
  refine ⟨List.nodup_nil, fun p w => rfl, fun tx htx => ?_⟩
  cases htx

theorem nodup_names_append {l : List Tx} {tx : Tx}
    (hnd : (l.map (fun u => u.name)).Nodup) (hnew : ∀ u ∈ l, u.name ≠ tx.name) :
    ((l ++ [tx]).map (fun u => u.name)).Nodup := by
  rw [List.map_append]
  refine List.Nodup.append hnd (List.nodup_singleton _) ?_
  intro a ha hb
  rcases List.mem_map.mp ha with ⟨u, hu, hun⟩
  rcases List.mem_singleton.mp hb with rfl
  exact hnew u hu hun

theorem ledgerBalance_singleton (p w : Nat) (tx : Tx) :
    ledgerBalance p w [tx] = txDelta p w tx := by
  unfold ledgerBalance
  rw [List.map_singleton, List.sum_singleton]

theorem rawInv_step {s s2 : St} (h : Step s s2) (hinv : RawInv s) :
    RawInv s2 := by
  obtain ⟨hnd, hbal, hzero⟩ := hinv
  cases h with
  | createProduct id name h =>
    obtain ⟨_, hs2⟩ := createProductOp_ok h
    have hled : s2.ledger = s.ledger := by rw [hs2]
    have hbals : s2.balances = s.balances := by rw [hs2]
    rw [RawInv, hled, hbals]
    exact ⟨hnd, hbal, hzero⟩
  | purchase pid wid sid q c ref tid ts nm hname h =>
    obtain ⟨_, _, hq, hc, _, hs2⟩ := purchaseOp_ok h
    have hled : s2.ledger =
        s.ledger ++ [mkPurchaseTx pid wid sid q c ref tid ts nm] := by rw [hs2]
    have hbals : s2.balances =
        setBal s.balances pid wid (getBal s.balances pid wid + q) := by rw [hs2]
    refine ⟨?_, ?_, ?_⟩
    · rw [hled]
      exact nodup_names_append hnd (fun u hu => hname u hu)
    · intro p2 w2
      rw [hled, hbals, ledgerBalance_append, ledgerBalance_singleton]
      by_cases hk : (p2, w2) = (pid, wid)
      · have hp2 : p2 = pid := congrArg Prod.fst hk
        have hw2 : w2 = wid := congrArg Prod.snd hk
        subst hp2; subst hw2
        rw [getBal_setBal_self, hbal p2 w2, txDelta_mkPurchaseTx,
          if_pos ⟨rfl, rfl⟩]
      · rw [getBal_setBal_other _ _ _ _ _ _ hk, hbal p2 w2,
          txDelta_mkPurchaseTx,
          if_neg (fun hcon => hk (by rw [hcon.1, hcon.2])), add_zero]
    · intro tx htx
      rw [hled] at htx
      rcases List.mem_append.mp htx with hold | hnew2
      · exact hzero tx hold
      · rcases List.mem_singleton.mp hnew2 with rfl
        exact ⟨hq, fun _ => hc, fun hcon => TxType.noConfusion hcon⟩
  | sale pid wid q price method tid ts nm hname h =>
    have hforall : ∃ cogs, List.Forall₂ SameCore
        (s.ledger ++ [mkSaleTx pid wid q price cogs tid ts nm]) s2.ledger ∧
        s2.balances = setBal s.balances pid wid (getBal s.balances pid wid - q) ∧
        q ≠ 0 ∧ price ≠ 0 := by
      cases method with
      | FIFO =>
        obtain ⟨_, hq, hp, _, cogs, _, hs2⟩ := saleOp_fifo_ok h
        have hled : s2.ledger = saleConsume pid wid q
            (s.ledger ++ [mkSaleTx pid wid q price cogs tid ts nm]) := by
          rw [hs2]
        have hbals : s2.balances =
            setBal s.balances pid wid (getBal s.balances pid wid - q) := by
          rw [hs2]
        refine ⟨cogs, ?_, hbals, hq, hp⟩
        rw [hled]
        apply saleConsume_sameCore
        exact nodup_names_append hnd (fun u hu => hname u hu)
      | AVG =>
        obtain ⟨_, hq, hp, _, cogs, _, hs2⟩ := saleOp_avg_ok h
        have hled : s2.ledger =
            s.ledger ++ [mkSaleTx pid wid q price cogs tid ts nm] := by
          rw [hs2]
        have hbals : s2.balances =
            setBal s.balances pid wid (getBal s.balances pid wid - q) := by
          rw [hs2]
        refine ⟨cogs, ?_, hbals, hq, hp⟩
        rw [hled]
        exact List.forall₂_same.mpr fun a _ => sameCore_refl a
    obtain ⟨cogs, hF, hbal2, hq, hp⟩ := hforall
    refine ⟨?_, ?_, ?_⟩
    · rw [forall₂_names hF]
      exact nodup_names_append hnd (fun u hu => hname u hu)
    · intro p2 w2
      rw [ledgerBalance_forall₂ hF, ledgerBalance_append,
        ledgerBalance_singleton, hbal2]
      by_cases hk : (p2, w2) = (pid, wid)
      · have hp2 : p2 = pid := congrArg Prod.fst hk
        have hw2 : w2 = wid := congrArg Prod.snd hk
        subst hp2; subst hw2
        rw [getBal_setBal_self, hbal p2 w2, txDelta_mkSaleTx,
          if_pos ⟨rfl, rfl⟩]
        ring
      · rw [getBal_setBal_other _ _ _ _ _ _ hk, hbal p2 w2,
          txDelta_mkSaleTx,
          if_neg (fun hcon => hk (by rw [hcon.1, hcon.2])), add_zero]
    · intro tx htx
      obtain ⟨a, ha, hab⟩ := forall₂_mem_right hF htx
      rw [sameCore_quantity hab, sameCore_type hab, sameCore_unitCost hab,
        sameCore_unitPrice hab]
      rcases List.mem_append.mp ha with hold | hnew2
      · exact hzero a hold
      · rcases List.mem_singleton.mp hnew2 with rfl
        exact ⟨hq, fun hcon => TxType.noConfusion hcon, fun _ => hp⟩
  | pay sid amt ref payId ts h =>
    obtain ⟨_, _, p2, _, hs2⟩ := payOp_ok h
    have hled : s2.ledger = s.ledger := by rw [hs2]
    have hbals : s2.balances = s.balances := by rw [hs2]
    rw [RawInv, hled, hbals]
    exact ⟨hnd, hbal, hzero⟩

theorem rawInv_reach {s : St} (h : Reach s) : RawInv s := by
  induction h with
  | init => exact rawInv_init
  | step s s2 h1 h2 ih => exact rawInv_step h2 ih

/-! ## Invariants of stores reached by well-formed requests -/

theorem matchesBatch_mkPurchaseTx (p2 w2 pid wid sid : Nat) (q c : ℚ)
    (ref : Option Nat) (tid ts nm : Nat) :
    matchesBatch p2 w2 (mkPurchaseTx pid wid sid q c ref tid ts nm) ↔
      pid = p2 ∧ wid = w2 := by
  unfold matchesBatch mkPurchaseTx
  simp

theorem pairwise_append_newfile {l : List Tx} {tx : Tx}
    (hp : l.Pairwise (fun a b => a.timestamp < b.timestamp ∧ a.name < b.name))
    (hnew : ∀ u ∈ l, u.timestamp < tx.timestamp ∧ u.name < tx.name) :
    (l ++ [tx]).Pairwise
      (fun a b => a.timestamp < b.timestamp ∧ a.name < b.name) := by
  rw [List.pairwise_append]
  refine ⟨hp, List.pairwise_singleton _ _, fun a ha b hb => ?_⟩
  rcases List.mem_singleton.mp hb with rfl
  exact hnew a ha

/-- Invariant maintained by committed well-formed requests: the ledger is
chained in strictly increasing timestamp and file-name order, every
purchase lot keeps a non-negative remaining quantity and a positive
quantity, the stored balance of every pair is non-negative and never
exceeds the total available lot quantity of the pair. -/
def GoodInv (s : St) : Prop :=
  s.ledger.Pairwise (fun a b => a.timestamp < b.timestamp ∧ a.name < b.name) ∧
  (∀ tx ∈ s.ledger, tx.type = TxType.PURCHASE → 0 ≤ avail tx ∧ 0 < tx.quantity) ∧
  (∀ p w, 0 ≤ getBal s.balances p w) ∧
  (∀ p w, getBal s.balances p w ≤ sumAvail p w s.ledger)

theorem goodInv_init : GoodInv initSt := by
  refine ⟨List.Pairwise.nil, fun tx htx => ?_, fun p w => le_refl 0,
    fun p w => le_refl 0⟩
  cases htx

theorem goodInv_step {s s2 : St} (h : GStep s s2) (hinv : GoodInv s) :
    GoodInv s2 := by
  obtain ⟨hpair, hlots, hnonneg, hle⟩ := hinv
  cases h with
  | createProduct id name h =>
    obtain ⟨_, hs2⟩ := createProductOp_ok h
    have hled : s2.ledger = s.ledger := by rw [hs2]
    have hbals : s2.balances = s.balances := by rw [hs2]
    rw [GoodInv, hled, hbals]
    exact ⟨hpair, hlots, hnonneg, hle⟩
  | purchase pid wid sid q c ref tid ts nm hq hc hnew h =>
    obtain ⟨_, _, _, _, _, hs2⟩ := purchaseOp_ok h
    have hled : s2.ledger =
        s.ledger ++ [mkPurchaseTx pid wid sid q c ref tid ts nm] := by rw [hs2]
    have hbals : s2.balances =
        setBal s.balances pid wid (getBal s.balances pid wid + q) := by rw [hs2]
    refine ⟨?_, ?_, ?_, ?_⟩
    · rw [hled]
      exact pairwise_append_newfile hpair (fun u hu => hnew u hu)
    · intro tx htx hty
      rw [hled] at htx
      rcases List.mem_append.mp htx with hold | hnew2
      · exact hlots tx hold hty
      · rcases List.mem_singleton.mp hnew2 with rfl
        rw [avail_mkPurchaseTx]
        exact ⟨le_of_lt hq, hq⟩
    · intro p2 w2
      rw [hbals]
      by_cases hk : (p2, w2) = (pid, wid)
      · have hp2 : p2 = pid := congrArg Prod.fst hk
        have hw2 : w2 = wid := congrArg Prod.snd hk
        subst hp2; subst hw2
        rw [getBal_setBal_self]
        have := hnonneg p2 w2
        linarith
      · rw [getBal_setBal_other _ _ _ _ _ _ hk]
        exact hnonneg p2 w2
    · intro p2 w2
      rw [hled, hbals, sumAvail_append, sumAvail_cons, sumAvail_nil]
      by_cases hk : (p2, w2) = (pid, wid)
      · have hp2 : p2 = pid := congrArg Prod.fst hk
        have hw2 : w2 = wid := congrArg Prod.snd hk
        subst hp2; subst hw2
        rw [getBal_setBal_self,
          if_pos ((matchesBatch_mkPurchaseTx p2 w2 p2 w2 sid q c ref tid ts nm).mpr
            ⟨rfl, rfl⟩), avail_mkPurchaseTx]
        have := hle p2 w2
        linarith
      · rw [getBal_setBal_other _ _ _ _ _ _ hk,
          if_neg (fun hcon =>
            hk (by
              rcases (matchesBatch_mkPurchaseTx p2 w2 pid wid sid q c ref
                tid ts nm).mp hcon with ⟨h1, h2⟩
              rw [← h1, ← h2]))]
        have := hle p2 w2
        linarith
  | sale pid wid q price method tid ts nm hq hp hnew h =>
    cases method with
    | AVG =>
      obtain ⟨_, _, _, hqle, cogs, _, hs2⟩ := saleOp_avg_ok h
      have hled : s2.ledger =
          s.ledger ++ [mkSaleTx pid wid q price cogs tid ts nm] := by rw [hs2]
      have hbals : s2.balances =
          setBal s.balances pid wid (getBal s.balances pid wid - q) := by
        rw [hs2]
      have hsum : ∀ p2 w2, sumAvail p2 w2 s2.ledger = sumAvail p2 w2 s.ledger := by
        intro p2 w2
        rw [hled, sumAvail_append, sumAvail_cons, sumAvail_nil,
          if_neg (matchesBatch_mkSaleTx p2 w2 pid wid q price cogs tid ts nm)]
        ring
      refine ⟨?_, ?_, ?_, ?_⟩
      · rw [hled]
        exact pairwise_append_newfile hpair (fun u hu => hnew u hu)
      · intro tx htx hty
        rw [hled] at htx
        rcases List.mem_append.mp htx with hold | hnew2
        · exact hlots tx hold hty
        · rcases List.mem_singleton.mp hnew2 with rfl
          exact absurd hty (fun hcon => TxType.noConfusion hcon)
      · intro p2 w2
        rw [hbals]
        by_cases hk : (p2, w2) = (pid, wid)
        · have hp2 : p2 = pid := congrArg Prod.fst hk
          have hw2 : w2 = wid := congrArg Prod.snd hk
          subst hp2; subst hw2
          rw [getBal_setBal_self]
          linarith
        · rw [getBal_setBal_other _ _ _ _ _ _ hk]
          exact hnonneg p2 w2
      · intro p2 w2
        rw [hbals, hsum p2 w2]
        by_cases hk : (p2, w2) = (pid, wid)
        · have hp2 : p2 = pid := congrArg Prod.fst hk
          have hw2 : w2 = wid := congrArg Prod.snd hk
          subst hp2; subst hw2
          rw [getBal_setBal_self]
          have := hle p2 w2
          linarith
        · rw [getBal_setBal_other _ _ _ _ _ _ hk]
          exact hle p2 w2
    | FIFO =>
      obtain ⟨_, _, _, hqle, cogs, _, hs2⟩ := saleOp_fifo_ok h
      have hled : s2.ledger = saleConsume pid wid q
          (s.ledger ++ [mkSaleTx pid wid q price cogs tid ts nm]) := by
        rw [hs2]
      have hbals : s2.balances =
          setBal s.balances pid wid (getBal s.balances pid wid - q) := by
        rw [hs2]
      have hpair1 : (s.ledger ++ [mkSaleTx pid wid q price cogs tid ts nm]).Pairwise
          (fun a b => a.timestamp < b.timestamp ∧ a.name < b.name) :=
        pairwise_append_newfile hpair (fun u hu => hnew u hu)
      have hconv : saleConsume pid wid q
          (s.ledger ++ [mkSaleTx pid wid q price cogs tid ts nm]) =
          consumeFiles pid wid q
            (s.ledger ++ [mkSaleTx pid wid q price cogs tid ts nm]) :=
        saleConsume_of_sorted _ _ _ _ (hpair1.imp (fun h2 => h2.2))
      have hav1 : ∀ tx ∈ s.ledger ++ [mkSaleTx pid wid q price cogs tid ts nm],
          matchesBatch pid wid tx → 0 ≤ avail tx := by
        intro tx htx hm
        rcases List.mem_append.mp htx with hold | hnew2
        · exact (hlots tx hold hm.1).1
        · rcases List.mem_singleton.mp hnew2 with rfl
          exact absurd hm (matchesBatch_mkSaleTx pid wid pid wid q price cogs tid ts nm)
      obtain ⟨hF2, hsum2, _⟩ := consumeFiles_spec pid wid
        (s.ledger ++ [mkSaleTx pid wid q price cogs tid ts nm]) q 0
        (le_of_lt hq) hav1
      have hsum1 : sumAvail pid wid
          (s.ledger ++ [mkSaleTx pid wid q price cogs tid ts nm]) =
          sumAvail pid wid s.ledger := by
        rw [sumAvail_append, sumAvail_cons, sumAvail_nil,
          if_neg (matchesBatch_mkSaleTx pid wid pid wid q price cogs tid ts nm)]
        ring
      have hqS : q ≤ sumAvail pid wid s.ledger := le_trans hqle (hle pid wid)
      refine ⟨?_, ?_, ?_, ?_⟩
      · rw [hled, hconv]
        exact pairwise_order_transport
          (hF2.imp (fun a b h2 => h2.1)) hpair1
      · intro tx htx hty
        rw [hled, hconv] at htx
        obtain ⟨a, ha, hrel⟩ := forall₂_mem_right hF2 htx
        obtain ⟨hcore, hnm, hmm⟩ := hrel
        have hty1 : a.type = TxType.PURCHASE := by
          rw [← sameCore_type hcore]; exact hty
        have ha1 : 0 ≤ avail a ∧ 0 < a.quantity := by
          rcases List.mem_append.mp ha with hold | hnew2
          · exact hlots a hold hty1
          · rcases List.mem_singleton.mp hnew2 with rfl
            exact absurd hty1 (fun hcon => TxType.noConfusion hcon)
        refine ⟨?_, by rw [sameCore_quantity hcore]; exact ha1.2⟩
        by_cases hm : matchesBatch pid wid a
        · exact (hmm hm).2
        · rw [hnm hm]; exact ha1.1
      · intro p2 w2
        rw [hbals]
        by_cases hk : (p2, w2) = (pid, wid)
        · have hp2 : p2 = pid := congrArg Prod.fst hk
          have hw2 : w2 = wid := congrArg Prod.snd hk
          subst hp2; subst hw2
          rw [getBal_setBal_self]
          linarith
        · rw [getBal_setBal_other _ _ _ _ _ _ hk]
          exact hnonneg p2 w2
      · intro p2 w2
        rw [hbals, hled, hconv]
        by_cases hk : (p2, w2) = (pid, wid)
        · have hp2 : p2 = pid := congrArg Prod.fst hk
          have hw2 : w2 = wid := congrArg Prod.snd hk
          subst hp2; subst hw2
          rw [getBal_setBal_self, hsum2, hsum1,
            min_eq_left (by linarith : q ≤ sumAvail p2 w2 s.ledger)]
          have := hle p2 w2
          linarith
        · rw [getBal_setBal_other _ _ _ _ _ _ hk,
            sumAvail_other_key hF2 p2 w2 hk, sumAvail_append, sumAvail_cons,
            sumAvail_nil,
            if_neg (matchesBatch_mkSaleTx p2 w2 pid wid q price cogs tid ts nm)]
          have := hle p2 w2
          linarith
  | pay sid amt ref payId ts ha h =>
    obtain ⟨_, _, p2, _, hs2⟩ := payOp_ok h
    have hled : s2.ledger = s.ledger := by rw [hs2]
    have hbals : s2.balances = s.balances := by rw [hs2]
    rw [GoodInv, hled, hbals]
    exact ⟨hpair, hlots, hnonneg, hle⟩

theorem goodInv_reach {s : St} (h : GReach s) : GoodInv s := by
  induction h with
  | init => exact goodInv_init
  | step s s2 h1 h2 ih => exact goodInv_step h2 ih

theorem gstep_step {s s2 : St} (h : GStep s s2) : Step s s2 := by
  cases h with
  | createProduct id name h => exact Step.createProduct _ _ id name h
  | purchase pid wid sid q c ref tid ts nm hq hc hnew h =>
    exact Step.purchase _ _ pid wid sid q c ref tid ts nm
      (fun u hu => ne_of_lt (hnew u hu).2) h
  | sale pid wid q price method tid ts nm hq hp hnew h =>
    exact Step.sale _ _ pid wid q price method tid ts nm
      (fun u hu => ne_of_lt (hnew u hu).2) h
  | pay sid amt ref payId ts ha h =>
    exact Step.pay _ _ sid amt ref payId ts h

theorem greach_reach {s : St} (h : GReach s) : Reach s := by
  induction h with
  | init => exact Reach.init
  | step s s2 h1 h2 ih => exact Reach.step s s2 ih (gstep_step h2)

/-- In a store satisfying the well-formed invariant, the FIFO engine
cannot fail for a request within the stored balance: the lots always
cover at least the balance. -/
theorem computeCOGS_FIFO_ok_of_goodInv {s : St} (hg : GoodInv s)
    (p w : Nat) (q : ℚ) (hq : 0 < q)
    (hle : q ≤ getBal s.balances p w) :
    ∃ c, computeCOGS_FIFO s.ledger p w q = Except.ok c := by
  obtain ⟨hpair, hlots, _, hgap⟩ := hg
  have hav : ∀ tx ∈ s.ledger, matchesBatch p w tx → 0 ≤ avail tx :=
    fun tx htx hm => (hlots tx htx hm.1).1
  obtain ⟨_, _, hloop⟩ := consumeFiles_spec p w s.ledger q 0 (le_of_lt hq) hav
  have hqS : q ≤ sumAvail p w s.ledger := le_trans hle (hgap p w)
  unfold computeCOGS_FIFO
  rw [loadPurchaseBatches_of_sorted s.ledger p w (hpair.imp (fun h2 => h2.1)),
    hloop, min_eq_left hqS]
  rw [if_neg (by simp)]
  exact ⟨_, rfl⟩

/-! ## Lexicographic order of transaction file names -/

instance (a b : List Char) : Decidable (FileNameLt a b) := by
  unfold FileNameLt
  exact List.Lex.decidableRel _ a b

theorem lex_append_of_length_eq {α : Type} {r : α → α → Prop} :
    ∀ {l1 l2 : List α}, List.Lex r l1 l2 → ∀ (s1 s2 : List α),
      l1.length = l2.length → List.Lex r (l1 ++ s1) (l2 ++ s2) := by
  intro l1 l2 h
  induction h with
  | nil =>
    intro s1 s2 hlen
    exact absurd hlen (by simp)
  | @cons a l1b l2b h ih =>
    intro s1 s2 hlen
    exact List.Lex.cons (ih s1 s2 (by simpa using hlen))
  | rel h =>
    intro s1 s2 _
    exact List.Lex.rel h

theorem lex_append_last_lt {α : Type} {r : α → α → Prop} :
    ∀ (l : List α) (x y : α), r x y → List.Lex r (l ++ [x]) (l ++ [y]) := by
  intro l x y h
  induction l with
  | nil => exact List.Lex.rel h
  | cons a t ih => exact List.Lex.cons ih

theorem digitsBE_lt :
    ∀ (t2 t1 : Nat), t1 < t2 →
      (Nat.digits 10 t1).length = (Nat.digits 10 t2).length →
      List.Lex (fun a b : Nat => a < b) (decimalDigitsBE t1) (decimalDigitsBE t2) := by
  intro t2
  induction t2 using Nat.strong_induction_on with
  | _ t2 ih =>
    intro t1 hlt hlen
    have ht2 : 0 < t2 := by omega
    have ht1 : 0 < t1 := by
      by_contra h0
      have hz : t1 = 0 := by omega
      subst hz
      rw [Nat.digits_zero] at hlen
      cases hd : Nat.digits 10 t2 with
      | nil =>
        have hne : Nat.digits 10 t2 ≠ [] :=
          Nat.digits_ne_nil_iff_ne_zero.mpr (by omega)
        exact hne hd
      | cons d ds =>
        rw [hd] at hlen
        simp at hlen
    have hd1 := Nat.digits_def' (by norm_num : 1 < 10) ht1
    have hd2 := Nat.digits_def' (by norm_num : 1 < 10) ht2
    have hlen2 : (Nat.digits 10 (t1 / 10)).length =
        (Nat.digits 10 (t2 / 10)).length := by
      rw [hd1, hd2] at hlen
      simpa using hlen
    unfold decimalDigitsBE
    rw [hd1, hd2, List.reverse_cons, List.reverse_cons]
    rcases Nat.lt_trichotomy (t1 / 10) (t2 / 10) with hdiv | hdiv | hdiv
    · have hrec := ih (t2 / 10) (Nat.div_lt_self ht2 (by norm_num))
        (t1 / 10) hdiv hlen2
      unfold decimalDigitsBE at hrec
      exact lex_append_of_length_eq hrec [t1 % 10] [t2 % 10]
        (by simpa using hlen2)
    · have e1 := Nat.div_add_mod t1 10
      have e2 := Nat.div_add_mod t2 10
      have hmod : t1 % 10 < t2 % 10 := by omega
      rw [hdiv]
      exact lex_append_last_lt _ _ _ hmod
    · have hx : t1 / 10 ≤ t2 / 10 := Nat.div_le_div_right (le_of_lt hlt)
      omega

theorem digitChar_lt_of_lt :
    ∀ a, a < 10 → ∀ b, b < 10 → a < b →
      Nat.digitChar a < Nat.digitChar b := by decide

theorem lex_map_digitChar :
    ∀ {l1 l2 : List Nat}, List.Lex (fun a b : Nat => a < b) l1 l2 →
      (∀ d ∈ l1, d < 10) → (∀ d ∈ l2, d < 10) →
      List.Lex (fun c d : Char => c < d)
        (l1.map Nat.digitChar) (l2.map Nat.digitChar) := by
  intro l1 l2 h
  induction h with
  | nil =>
    intro _ _
    rw [List.map_nil, List.map_cons]
    exact List.Lex.nil
  | @cons a l1b l2b h ih =>
    intro h1 h2
    rw [List.map_cons, List.map_cons]
    exact List.Lex.cons (ih (fun d hd => h1 d (List.mem_cons_of_mem _ hd))
      (fun d hd => h2 d (List.mem_cons_of_mem _ hd)))
  | @rel a1 l1b a2 l2b hr =>
    intro h1 h2
    rw [List.map_cons, List.map_cons]
    exact List.Lex.rel (digitChar_lt_of_lt a1 (h1 a1 (List.mem_cons_self _ _))
      a2 (h2 a2 (List.mem_cons_self _ _)) hr)

theorem decimalDigitsBE_lt_base (t : Nat) :
    ∀ d ∈ decimalDigitsBE t, d < 10 := by
  intro d hd
  unfold decimalDigitsBE at hd
  exact Nat.digits_lt_base (by norm_num) (List.mem_reverse.mp hd)

theorem txFileName_order (t1 t2 : Nat) (u1 u2 : List Char)
    (hlt : t1 < t2)
    (hlen : (Nat.digits 10 t1).length = (Nat.digits 10 t2).length) :
    FileNameLt (txFileName t1 u1) (txFileName t2 u2) := by
  have ht2 : t2 ≠ 0 := by omega
  have ht1 : t1 ≠ 0 := by
    intro h0
    subst h0
    rw [Nat.digits_zero] at hlen
    cases hd : Nat.digits 10 t2 with
    | nil =>
      have hne : Nat.digits 10 t2 ≠ [] :=
        Nat.digits_ne_nil_iff_ne_zero.mpr ht2
      exact hne hd
    | cons d ds =>
      rw [hd] at hlen
      simp at hlen
  unfold txFileName FileNameLt decimalChars
  rw [if_neg ht1, if_neg ht2]
  apply lex_append_of_length_eq
  · exact lex_map_digitChar (digitsBE_lt t2 t1 hlt hlen)
      (decimalDigitsBE_lt_base t1) (decimalDigitsBE_lt_base t2)
  · unfold decimalDigitsBE
    simp [hlen]

/-! ## Demonstration stores

Concrete stores used to instantiate the claims: the spec's own scenario of
lot A (10 units at cost 2) followed by lot B (5 units at cost 4). -/

instance (s : St) (name : Nat) : Decidable (NewName s name) := by
  unfold NewName
  infer_instance

instance (s : St) (ts name : Nat) : Decidable (NewFile s ts name) := by
  unfold NewFile
  infer_instance

/-- Store after creating product 1. -/
def demo0 : St := { products := [1] }

/-- Lot A: 10 units at cost 2. -/
def lotA : Tx := mkPurchaseTx 1 1 2 10 2 none 11 100 100

/-- Lot B: 5 units at cost 4. -/
def lotB : Tx := mkPurchaseTx 1 1 2 5 4 none 12 200 200

/-- Payable of supplier 2 after the lot A purchase. -/
def payA : Payable :=
  { amount := 20
    invoices := [{ id := 11, amount := 20, reference := none, timestamp := 100 }] }

/-- Payable of supplier 2 after both purchases. -/
def payAB : Payable :=
  { amount := 40
    invoices := [{ id := 11, amount := 20, reference := none, timestamp := 100 },
                 { id := 12, amount := 20, reference := none, timestamp := 200 }] }

/-- Store after purchasing lot A. -/
def demo1 : St :=
  { products := [1]
    ledger := [lotA]
    balances := [((1, 1), 10)]
    payables := [(2, payA)] }

/-- Store after purchasing lots A and B. -/
def demo2 : St :=
  { products := [1]
    ledger := [lotA, lotB]
    balances := [((1, 1), 15)]
    payables := [(2, payAB)] }

/-- Store after a committed FIFO sale of 12 units at price 7 on demo2:
lot A is drained to 0, lot B to 3, COGS 28, balance 3. -/
def demo3 : St :=
  { products := [1]
    ledger := [{ lotA with remaining := some 0 },
               { lotB with remaining := some 3 },
               mkSaleTx 1 1 12 7 28 13 300 300]
    balances := [((1, 1), 3)]
    payables := [(2, payAB)] }

theorem step_demo01 : purchaseOp demo0 1 1 2 10 2 none 11 100 100 =
    Except.ok demo1 := by
  simp [purchaseOp, demo0, demo1, lotA, payA, getBal, setBal, getPayable,
    setPayable, purchasePayable, List.lookup]
  norm_num

theorem step_demo12 : purchaseOp demo1 1 1 2 5 4 none 12 200 200 =
    Except.ok demo2 := by
  simp [purchaseOp, demo1, demo2, lotA, lotB, payA, payAB, getBal, setBal,
    getPayable, setPayable, purchasePayable, List.lookup, mkPurchaseTx]
  norm_num

theorem step_demo23 : saleOp demo2 1 1 12 7 Method.FIFO 13 300 300 =
    Except.ok demo3 := by
  simp [saleOp, demo2, demo3, getBal, setBal, List.lookup, computeCOGS_FIFO,
    loadPurchaseBatches, List.insertionSort, List.orderedInsert, fifoLoop,
    avail, mkPurchaseTx, mkSaleTx, matchesBatch, min_def, saleConsume,
    consumeFiles, lotA, lotB, payAB, List.find?]
  norm_num

theorem greach_demo2 : GReach demo2 := by
  have h0 : GReach demo0 :=
    GReach.step _ _ GReach.init (GStep.createProduct _ _ 1 1 rfl)
  have h1 : GReach demo1 :=
    GReach.step _ _ h0 (GStep.purchase _ _ 1 1 2 10 2 none 11 100 100
      (by norm_num) (by norm_num) (by decide) step_demo01)
  exact GReach.step _ _ h1 (GStep.purchase _ _ 1 1 2 5 4 none 12 200 200
    (by norm_num) (by norm_num) (by decide) step_demo12)

/-! ## The claims -/

/-- C1: for every FIFO-costed sale on a (product, warehouse) pair, the
computed cost of goods sold is obtained by loading the PURCHASE ledger
entries of the pair sorted by creation order ascending (timestamps follow
creation order and lots carry non-negative availability) and walking them
in order, taking min(remaining-or-quantity, stillNeeded) units at each
entry's unit cost, accumulating cost and decrementing the need until it
reaches zero; in particular for lots of 10 units at cost 2 then 5 units at
cost 4, a FIFO sale of 12 units yields COGS 28. -/
theorem claim1_fifo_cogs_algorithm :
    (∀ (ledger : List Tx) (p w : Nat) (qty : ℚ),
        ledger.Pairwise (fun a b => a.timestamp < b.timestamp) →
        (∀ tx ∈ ledger, matchesBatch p w tx → 0 ≤ avail tx) →
        0 ≤ qty →
        computeCOGS_FIFO ledger p w qty =
          specFifoCOGS (ledger.filter (fun tx => matchesBatch p w tx)) qty) ∧
    computeCOGS_FIFO demo2.ledger 1 1 12 = Except.ok 28 := by
  constructor
  · intro ledger p w qty hs hav hq
    exact computeCOGS_FIFO_spec ledger p w qty hs hav hq
  · simp [computeCOGS_FIFO, demo2, loadPurchaseBatches, List.insertionSort,
      List.orderedInsert, fifoLoop, avail, lotA, lotB, mkPurchaseTx,
      matchesBatch, min_def]
    norm_num

/-- Witness for C1: the refinement applied to the concrete two-lot store. -/
theorem claim1_fifo_cogs_algorithm_witness :
    computeCOGS_FIFO demo2.ledger 1 1 12 =
      specFifoCOGS (demo2.ledger.filter (fun tx => matchesBatch 1 1 tx)) 12 :=
  claim1_fifo_cogs_algorithm.1 demo2.ledger 1 1 12 (by decide) (by decide)
    (by norm_num)

/-- C2: after every committed FIFO sale of a positive quantity from a
well-formed reachable store, the consumed quantities are subtracted from
the purchase lots by the same walk that computed the cost (the sale's
recorded COGS equals the per-lot drained quantities priced at each lot's
unit cost, in creation order), every lot's remaining stays non-negative
and non-increasing, lots of other pairs are untouched, and both the total
available lot quantity of the pair and the stored balance decrease by
exactly the sold quantity. -/
theorem claim2_fifo_consumption {s s2 : St} {pid wid : Nat} {q price : ℚ}
    {tid ts nm : Nat}
    (hreach : GReach s) (hq : 0 < q) (hnew : NewFile s ts nm)
    (h : saleOp s pid wid q price Method.FIFO tid ts nm = Except.ok s2) :
    ∃ saleTx, saleTx.type = TxType.SALE ∧ saleTx.quantity = q ∧
      List.Forall₂ (ConsumeRel pid wid) (s.ledger ++ [saleTx]) s2.ledger ∧
      sumAvail pid wid s2.ledger = sumAvail pid wid s.ledger - q ∧
      (∀ p2 w2, (p2, w2) ≠ (pid, wid) →
        sumAvail p2 w2 s2.ledger = sumAvail p2 w2 s.ledger) ∧
      getBal s2.balances pid wid = getBal s.balances pid wid - q ∧
      computeCOGS_FIFO s.ledger pid wid q = Except.ok saleTx.cogs ∧
      saleTx.cogs = consumedCost (s.ledger ++ [saleTx]) s2.ledger := by
  obtain ⟨hpair, hlots, hnonneg, hgap⟩ := goodInv_reach hreach
  obtain ⟨hpid, hq0, hp0, hqle, cogs, hok, hs2⟩ := saleOp_fifo_ok h
  refine ⟨mkSaleTx pid wid q price cogs tid ts nm, rfl, rfl, ?_, ?_, ?_, ?_, ?_, ?_⟩
  all_goals {
    have hled : s2.ledger = saleConsume pid wid q
        (s.ledger ++ [mkSaleTx pid wid q price cogs tid ts nm]) := by rw [hs2]
    have hbals : s2.balances =
        setBal s.balances pid wid (getBal s.balances pid wid - q) := by rw [hs2]
    have hpair1 : (s.ledger ++ [mkSaleTx pid wid q price cogs tid ts nm]).Pairwise
        (fun a b => a.timestamp < b.timestamp ∧ a.name < b.name) :=
      pairwise_append_newfile hpair (fun u hu => hnew u hu)
    have hconv : saleConsume pid wid q
        (s.ledger ++ [mkSaleTx pid wid q price cogs tid ts nm]) =
        consumeFiles pid wid q
          (s.ledger ++ [mkSaleTx pid wid q price cogs tid ts nm]) :=
      saleConsume_of_sorted _ _ _ _ (hpair1.imp (fun h2 => h2.2))
    have hav1 : ∀ tx ∈ s.ledger ++ [mkSaleTx pid wid q price cogs tid ts nm],
        matchesBatch pid wid tx → 0 ≤ avail tx := by
      intro tx htx hm
      rcases List.mem_append.mp htx with hold | hnew2
      · exact (hlots tx hold hm.1).1
      · rcases List.mem_singleton.mp hnew2 with rfl
        exact absurd hm (matchesBatch_mkSaleTx pid wid pid wid q price cogs tid ts nm)
    obtain ⟨hF2, hsum2, hloop⟩ := consumeFiles_spec pid wid
      (s.ledger ++ [mkSaleTx pid wid q price cogs tid ts nm]) q 0
      (le_of_lt hq) hav1
    have hsum1 : sumAvail pid wid
        (s.ledger ++ [mkSaleTx pid wid q price cogs tid ts nm]) =
        sumAvail pid wid s.ledger := by
      rw [sumAvail_append, sumAvail_cons, sumAvail_nil,
        if_neg (matchesBatch_mkSaleTx pid wid pid wid q price cogs tid ts nm)]
      ring
    have hqS : q ≤ sumAvail pid wid
        (s.ledger ++ [mkSaleTx pid wid q price cogs tid ts nm]) := by
      rw [hsum1]
      exact le_trans hqle (hgap pid wid)
    have hfilter : (s.ledger ++ [mkSaleTx pid wid q price cogs tid ts nm]).filter
        (fun tx => matchesBatch pid wid tx) =
        s.ledger.filter (fun tx => matchesBatch pid wid tx) := by
      rw [List.filter_append]
      have h1 : List.filter (fun tx => decide (matchesBatch pid wid tx))
          [mkSaleTx pid wid q price cogs tid ts nm] = [] := by
        simp [matchesBatch_mkSaleTx pid wid pid wid q price cogs tid ts nm]
      rw [h1, List.append_nil]
    have hC : computeCOGS_FIFO s.ledger pid wid q =
        Except.ok (consumedCost
          (s.ledger ++ [mkSaleTx pid wid q price cogs tid ts nm])
          (consumeFiles pid wid q
            (s.ledger ++ [mkSaleTx pid wid q price cogs tid ts nm]))) := by
      unfold computeCOGS_FIFO
      rw [loadPurchaseBatches_of_sorted _ _ _ (hpair.imp (fun h2 => h2.1)),
        ← hfilter, hloop, min_eq_left hqS]
      rw [if_neg (by simp)]
      simp
    have hcogs : cogs = consumedCost
        (s.ledger ++ [mkSaleTx pid wid q price cogs tid ts nm])
        (consumeFiles pid wid q
          (s.ledger ++ [mkSaleTx pid wid q price cogs tid ts nm])) := by
      have h2 := hok
      rw [hC] at h2
      exact (Except.ok.inj h2).symm
    first
    | exact (by rw [hled, hconv]; exact hF2)
    | exact (by
        rw [hled, hconv, hsum2, hsum1,
          min_eq_left (le_trans hqle (hgap pid wid))])
    | exact (by
        intro p2 w2 hk
        rw [hled, hconv, sumAvail_other_key hF2 p2 w2 hk, sumAvail_append,
          sumAvail_cons, sumAvail_nil,
          if_neg (matchesBatch_mkSaleTx p2 w2 pid wid q price cogs tid ts nm)]
        ring)
    | exact (by rw [hbals, getBal_setBal_self])
    | exact hok
    | exact (by rw [hled, hconv]; exact hcogs)
  }

/-- Witness for C2: the committed FIFO sale of 12 units on the two-lot
store. -/
theorem claim2_fifo_consumption_witness :
    ∃ saleTx, saleTx.type = TxType.SALE ∧ saleTx.quantity = 12 ∧
      List.Forall₂ (ConsumeRel 1 1) (demo2.ledger ++ [saleTx]) demo3.ledger ∧
      sumAvail 1 1 demo3.ledger = sumAvail 1 1 demo2.ledger - 12 ∧
      (∀ p2 w2, (p2, w2) ≠ (1, 1) →
        sumAvail p2 w2 demo3.ledger = sumAvail p2 w2 demo2.ledger) ∧
      getBal demo3.balances 1 1 = getBal demo2.balances 1 1 - 12 ∧
      computeCOGS_FIFO demo2.ledger 1 1 12 = Except.ok saleTx.cogs ∧
      saleTx.cogs = consumedCost (demo2.ledger ++ [saleTx]) demo3.ledger :=
  claim2_fifo_consumption greach_demo2 (by norm_num) (by decide) step_demo23

/-- Store after a committed AVERAGE sale of 12 units at price 7 on demo2:
COGS 32, balance 3, both lots untouched. -/
def demoAvg : St :=
  { products := [1]
    ledger := [lotA, lotB, mkSaleTx 1 1 12 7 32 13 300 300]
    balances := [((1, 1), 3)]
    payables := [(2, payAB)] }

theorem step_demoAvg : saleOp demo2 1 1 12 7 Method.AVG 13 300 300 =
    Except.ok demoAvg := by
  simp [saleOp, demo2, demoAvg, getBal, setBal, List.lookup, computeCOGS_Avg,
    loadPurchaseBatches, List.insertionSort, List.orderedInsert, avail,
    mkPurchaseTx, mkSaleTx, matchesBatch, lotA, lotB, payAB]
  norm_num

/-- C3: for every average-costed sale, the computed COGS equals the
requested quantity times the ratio of the available-weighted cost to the
total available quantity over all purchase lots of the pair, the engine
fails with the insufficient-stock condition exactly when the total
available quantity is below the request, and a committed average sale
appends one SALE record and mutates no existing ledger entry (no lot's
remaining changes); on the two-lot store a sale of 12 units costs 32 and a
sale of 16 units fails. -/
theorem claim3_avg_costing :
    (∀ (ledger : List Tx) (p w : Nat) (qty : ℚ),
        computeCOGS_Avg ledger p w qty = specAvgCOGS ledger p w qty) ∧
    (∀ (s s2 : St) (pid wid : Nat) (q price : ℚ) (tid ts nm : Nat),
        saleOp s pid wid q price Method.AVG tid ts nm = Except.ok s2 →
        ∃ cogs, computeCOGS_Avg s.ledger pid wid q = Except.ok cogs ∧
          s2.ledger = s.ledger ++ [mkSaleTx pid wid q price cogs tid ts nm]) ∧
    computeCOGS_Avg demo2.ledger 1 1 12 = Except.ok 32 ∧
    computeCOGS_Avg demo2.ledger 1 1 16 =
      Except.error "Insufficient stock for AVG" := by
  refine ⟨computeCOGS_Avg_spec, ?_, ?_, ?_⟩
  · intro s s2 pid wid q price tid ts nm h
    obtain ⟨_, _, _, _, cogs, hok, hs2⟩ := saleOp_avg_ok h
    exact ⟨cogs, hok, by rw [hs2]⟩
  · simp [computeCOGS_Avg, demo2, loadPurchaseBatches, List.insertionSort,
      List.orderedInsert, avail, lotA, lotB, mkPurchaseTx, matchesBatch]
    norm_num
  · simp [computeCOGS_Avg, demo2, loadPurchaseBatches, List.insertionSort,
      List.orderedInsert, avail, lotA, lotB, mkPurchaseTx, matchesBatch]
    norm_num

/-- Witness for C3: the committed average sale of 12 units on the two-lot
store appends one SALE record with COGS 32 and leaves both lots as they
were. -/
theorem claim3_avg_costing_witness :
    ∃ cogs, computeCOGS_Avg demo2.ledger 1 1 12 = Except.ok cogs ∧
      demoAvg.ledger = demo2.ledger ++ [mkSaleTx 1 1 12 7 cogs 13 300 300] :=
  claim3_avg_costing.2.1 demo2 demoAvg 1 1 12 7 13 300 300 step_demoAvg

/-- C4: every sale request that passes field validation but asks for more
than the available balance of its (product, warehouse) pair is rejected
with the insufficient-stock error carrying the available quantity, and the
whole store (balances, ledger, payables, products) is returned unchanged. -/
theorem claim4_insufficient_stock_rejected (s : St) (pid wid : Nat)
    (q price : ℚ) (m : Method) (tid ts nm : Nat)
    (hp : pid ≠ 0) (hq : q ≠ 0) (hprice : price ≠ 0)
    (hb : getBal s.balances pid wid < q) :
    runOp s (saleOp s pid wid q price m tid ts nm) =
      (s, some (Err.insufficientStock (getBal s.balances pid wid))) := by
  rw [saleOp_insufficient s pid wid q price m tid ts nm hp hq hprice hb]
  rfl

/-- Witness for C4: a sale of 20 units against a balance of 15 is rejected
carrying available quantity 15 and the store is unchanged. -/
theorem claim4_insufficient_stock_rejected_witness :
    runOp demo2 (saleOp demo2 1 1 20 7 Method.FIFO 13 300 300) =
      (demo2, some (Err.insufficientStock 15)) :=
  claim4_insufficient_stock_rejected demo2 1 1 20 7 Method.FIFO 13 300 300
    (by decide) (by decide) (by decide) (by decide)

/-- Store after the handlers accept a purchase of quantity -5 at cost 1
(-5 is truthy, so the truthiness validation passes): the stored balance of
the pair becomes -5. -/
def demoNeg : St :=
  { products := [1]
    ledger := [mkPurchaseTx 1 1 2 (-5) 1 none 11 100 100]
    balances := [((1, 1), -5)]
    payables := [(2, { amount := -5
                       invoices := [{ id := 11, amount := -5, reference := none,
                                      timestamp := 100 }] })] }

theorem step_demoNeg : purchaseOp demo0 1 1 2 (-5) 1 none 11 100 100 =
    Except.ok demoNeg := by
  simp [purchaseOp, demo0, demoNeg, getBal, setBal, getPayable, setPayable,
    purchasePayable, List.lookup]

/-- Counterexample to C5: a sequence of committed requests (create product
1, purchase quantity -5 at cost 1) reaches a store whose balance is -5:
the handlers accept negative quantities, so the balance does go negative. -/
theorem claim5_counterexample :
    Reach demoNeg ∧ getBal demoNeg.balances 1 1 < 0 := by
  constructor
  · exact Reach.step demo0 demoNeg
      (Reach.step initSt demo0 Reach.init (Step.createProduct initSt demo0 1 1 rfl))
      (Step.purchase demo0 demoNeg 1 1 2 (-5) 1 none 11 100 100 (by decide)
        step_demoNeg)
  · decide

/-- C5 amended: for every sequence of committed requests the stored
balance of every (product, warehouse) pair equals the full-ledger replay
(purchases minus sales), and when every committed quantity is a positive
unit count the balance additionally never goes negative. -/
theorem claim5_balance_replay_amended :
    (∀ s, Reach s → ∀ p w,
      getBal s.balances p w = ledgerBalance p w s.ledger) ∧
    (∀ s, GReach s → ∀ p w, 0 ≤ getBal s.balances p w) :=
  ⟨fun s hs p w => (rawInv_reach hs).2.1 p w,
   fun s hs p w => (goodInv_reach hs).2.2.1 p w⟩

/-- Witness for C5 amended: the two-lot store replays to its stored
balance and the balance is non-negative. -/
theorem claim5_balance_replay_amended_witness :
    getBal demo2.balances 1 1 = ledgerBalance 1 1 demo2.ledger ∧
    0 ≤ getBal demo2.balances 1 1 :=
  ⟨claim5_balance_replay_amended.1 demo2 (greach_reach greach_demo2) 1 1,
   claim5_balance_replay_amended.2 demo2 greach_demo2 1 1⟩

/-- Lot of 5 units at cost 1. -/
def lotFive : Tx := mkPurchaseTx 1 1 2 5 1 none 11 100 100

/-- Payable of supplier 2 after the lotFive purchase. -/
def payFive : Payable :=
  { amount := 5
    invoices := [{ id := 11, amount := 5, reference := none, timestamp := 100 }] }

/-- Store holding the single 5-unit lot. -/
def demoFive : St :=
  { products := [1]
    ledger := [lotFive]
    balances := [((1, 1), 5)]
    payables := [(2, payFive)] }

theorem step_demoFive : purchaseOp demo0 1 1 2 5 1 none 11 100 100 =
    Except.ok demoFive := by
  simp [purchaseOp, demo0, demoFive, lotFive, payFive, getBal, setBal,
    getPayable, setPayable, purchasePayable, List.lookup]

/-- Store after the handlers additionally accept an average-costed sale of
quantity -3 (truthy, passes validation; -3 is not below the balance, so
the availability check passes): the balance rises to 8 while the lots
still hold only 5 units. -/
def demoDiverged : St :=
  { products := [1]
    ledger := [lotFive, mkSaleTx 1 1 (-3) 1 (-3) 12 200 200]
    balances := [((1, 1), 8)]
    payables := [(2, payFive)] }

theorem step_demoDiverged : saleOp demoFive 1 1 (-3) 1 Method.AVG 12 200 200 =
    Except.ok demoDiverged := by
  simp [saleOp, demoFive, demoDiverged, getBal, setBal, List.lookup,
    computeCOGS_Avg, loadPurchaseBatches, List.insertionSort,
    List.orderedInsert, avail, lotFive, payFive, mkPurchaseTx, mkSaleTx,
    matchesBatch]
  norm_num

/-- Counterexample to C6: a sequence of committed requests (create product
1, purchase 5 units at cost 1, average-costed sale of quantity -3) reaches
a store whose balance 8 exceeds the total available lot quantity 5, and
there the FIFO engine throws its internal insufficient-stock failure for a
request of 7 units even though 7 is at most the stored balance. -/
theorem claim6_counterexample :
    Reach demoDiverged ∧
    0 < (7 : ℚ) ∧ (7 : ℚ) ≤ getBal demoDiverged.balances 1 1 ∧
    sumAvail 1 1 demoDiverged.ledger < getBal demoDiverged.balances 1 1 ∧
    computeCOGS_FIFO demoDiverged.ledger 1 1 7 =
      Except.error "Insufficient stock for FIFO" := by
  refine ⟨?_, by norm_num, by decide, ?_, ?_⟩
  · exact Reach.step demoFive demoDiverged
      (Reach.step demo0 demoFive
        (Reach.step initSt demo0 Reach.init
          (Step.createProduct initSt demo0 1 1 rfl))
        (Step.purchase demo0 demoFive 1 1 2 5 1 none 11 100 100 (by decide)
          step_demoFive))
      (Step.sale demoFive demoDiverged 1 1 (-3) 1 Method.AVG 12 200 200
        (by decide) step_demoDiverged)
  · simp [sumAvail, demoDiverged, getBal, List.lookup, avail, lotFive,
      mkPurchaseTx, mkSaleTx, matchesBatch]
    norm_num
  · simp [computeCOGS_FIFO, demoDiverged, loadPurchaseBatches,
      List.insertionSort, List.orderedInsert, fifoLoop, avail, lotFive,
      mkPurchaseTx, mkSaleTx, matchesBatch, min_def]
    norm_num

/-- C6 amended: in every store reached by committed well-formed requests
(positive quantities), the stored balance of every pair is at most the
total available lot quantity, and consequently the FIFO engine never
throws for a requested quantity that is positive and at most the stored
balance. -/
theorem claim6_fifo_never_throws_amended :
    ∀ s, GReach s → ∀ (p w : Nat),
      getBal s.balances p w ≤ sumAvail p w s.ledger ∧
      ∀ (q : ℚ), 0 < q → q ≤ getBal s.balances p w →
        ∃ c, computeCOGS_FIFO s.ledger p w q = Except.ok c :=
  fun s hs p w =>
    ⟨(goodInv_reach hs).2.2.2 p w,
     fun q hq hle =>
       computeCOGS_FIFO_ok_of_goodInv (goodInv_reach hs) p w q hq hle⟩

/-- Witness for C6 amended: on the two-lot store the balance 15 is covered
by the lots and a FIFO request of 12 units succeeds. -/
theorem claim6_fifo_never_throws_amended_witness :
    getBal demo2.balances 1 1 ≤ sumAvail 1 1 demo2.ledger ∧
    ∃ c, computeCOGS_FIFO demo2.ledger 1 1 12 = Except.ok c :=
  ⟨(claim6_fifo_never_throws_amended demo2 greach_demo2 1 1).1,
   (claim6_fifo_never_throws_amended demo2 greach_demo2 1 1).2 12
     (by norm_num) (by decide)⟩

/-- C7: a validated payment against a supplier with a payable record
decreases the outstanding amount floored at zero (an overpayment clamps it
to exactly zero), appends one payment record to the supplier's payment
history without touching the invoice history, and changes nothing else
(ledger, balances, products, other suppliers); a payment against a
supplier with no payable record fails with the no-payable error and the
whole store is returned unchanged. -/
theorem claim7_payment (s : St) (sid : Nat) (amt : ℚ) (ref : Option Nat)
    (payId ts : Nat) (hsid : sid ≠ 0) (hamt : amt ≠ 0) :
    (∀ p, getPayable s.payables sid = some p →
      ∃ s2, payOp s sid amt ref payId ts = Except.ok s2 ∧
        getPayable s2.payables sid = some (paidPayable p amt ref payId ts) ∧
        (paidPayable p amt ref payId ts).amount = max (p.amount - amt) 0 ∧
        (p.amount ≤ amt → (paidPayable p amt ref payId ts).amount = 0) ∧
        (paidPayable p amt ref payId ts).payments = p.payments ++
          [{ id := payId, amount := amt, reference := ref, timestamp := ts }] ∧
        (paidPayable p amt ref payId ts).invoices = p.invoices ∧
        s2.ledger = s.ledger ∧ s2.balances = s.balances ∧
        s2.products = s.products ∧
        (∀ sid2, sid2 ≠ sid →
          getPayable s2.payables sid2 = getPayable s.payables sid2)) ∧
    (getPayable s.payables sid = none →
      runOp s (payOp s sid amt ref payId ts) = (s, some Err.noPayable)) := by
  constructor
  · intro p hp
    refine ⟨{ s with
        payables := setPayable s.payables sid (paidPayable p amt ref payId ts) },
      ?_, ?_, ?_, ?_, rfl, rfl, rfl, rfl, rfl, ?_⟩
    · unfold payOp
      rw [if_neg (by tauto), hp]
    · exact getPayable_setPayable_self _ _ _
    · show (if p.amount - amt < 0 then 0 else p.amount - amt) =
        max (p.amount - amt) 0
      by_cases hlt : p.amount - amt < 0
      · rw [if_pos hlt, max_eq_right (le_of_lt hlt)]
      · rw [if_neg hlt, max_eq_left (not_lt.mp hlt)]
    · intro hover
      show (if p.amount - amt < 0 then 0 else p.amount - amt) = 0
      by_cases hlt : p.amount - amt < 0
      · rw [if_pos hlt]
      · rw [if_neg hlt]
        have h1 : p.amount - amt ≤ 0 := by linarith
        linarith [not_lt.mp hlt]
    · intro sid2 hne
      exact getPayable_setPayable_other _ _ _ _ hne
  · intro hnone
    rw [payOp_no_record s sid amt ref payId ts hsid hamt hnone]
    rfl

/-- Witness for C7: an overpayment of 50 against the 40 outstanding of
supplier 2 clamps the payable to zero and appends the payment entry;
a payment against the unknown supplier 9 fails and leaves the store
unchanged. -/
theorem claim7_payment_witness :
    (∃ s2, payOp demo2 2 50 none 31 400 = Except.ok s2 ∧
      getPayable s2.payables 2 = some (paidPayable payAB 50 none 31 400) ∧
      (paidPayable payAB 50 none 31 400).amount = max (payAB.amount - 50) 0 ∧
      (payAB.amount ≤ 50 → (paidPayable payAB 50 none 31 400).amount = 0) ∧
      (paidPayable payAB 50 none 31 400).payments = payAB.payments ++
        [{ id := 31, amount := 50, reference := none, timestamp := 400 }] ∧
      (paidPayable payAB 50 none 31 400).invoices = payAB.invoices ∧
      s2.ledger = demo2.ledger ∧ s2.balances = demo2.balances ∧
      s2.products = demo2.products ∧
      (∀ sid2, sid2 ≠ 2 →
        getPayable s2.payables sid2 = getPayable demo2.payables sid2)) ∧
    runOp demo2 (payOp demo2 9 50 none 31 400) = (demo2, some Err.noPayable) :=
  ⟨(claim7_payment demo2 2 50 none 31 400 (by decide) (by decide)).1 payAB rfl,
   (claim7_payment demo2 9 50 none 31 400 (by decide) (by decide)).2 rfl⟩

/-- Counterexample to C8: writeTransaction breaks the claimed name
ordering in two ways.  Same-timestamp transactions are suffixed with a
random uuid, which does not follow creation order: written first with
uuid bbbb and second with uuid aaaa at timestamp 100, the earlier file has
the strictly larger name.  The decimal timestamp prefix is not
zero-padded, so timestamp 9 written before timestamp 10 also yields the
lexicographically larger name. -/
theorem claim8_counterexample :
    (¬ FileNameLt (txFileName 100 "bbbb".toList) (txFileName 100 "aaaa".toList) ∧
      FileNameLt (txFileName 100 "aaaa".toList) (txFileName 100 "bbbb".toList)) ∧
    (9 < 10 ∧
      ¬ FileNameLt (txFileName 9 "aaaa".toList) (txFileName 10 "aaaa".toList) ∧
      FileNameLt (txFileName 10 "aaaa".toList) (txFileName 9 "aaaa".toList)) := by
  refine ⟨⟨?_, ?_⟩, by norm_num, ?_, ?_⟩ <;>
    (simp only [txFileName, decimalChars, decimalDigitsBE]
     norm_num [Nat.digitChar]
     decide)

/-- C8 amended: lexicographic file-name order follows creation order only
between transactions whose Date.now() timestamps are distinct and render
to the same number of decimal digits (as all realistic epoch-millisecond
values do); the random uuid suffix makes names unique but does not break
same-timestamp ties in creation order. -/
theorem claim8_name_order_amended (t1 t2 : Nat) (u1 u2 : List Char)
    (hlt : t1 < t2)
    (hlen : (Nat.digits 10 t1).length = (Nat.digits 10 t2).length) :
    FileNameLt (txFileName t1 u1) (txFileName t2 u2) :=
  txFileName_order t1 t2 u1 u2 hlt hlen

/-- Witness for C8 amended: distinct same-width timestamps order their
file names by creation order. -/
theorem claim8_name_order_amended_witness :
    FileNameLt (txFileName 170 "zz".toList) (txFileName 205 "aa".toList) :=
  claim8_name_order_amended 170 205 "zz".toList "aa".toList (by norm_num)
    (by simp)

/-- Final store of the interleaved schedule: both 5-unit sales committed
against the single 5-unit lot. -/
def demoRaced : St :=
  { products := [1]
    ledger := [lotFive, mkSaleTx 1 1 5 3 5 22 400 400,
               mkSaleTx 1 1 5 3 5 21 300 300]
    balances := [((1, 1), 0)]
    payables := [(2, payFive)] }

/-- C9 evaluated at its failing input: with the per-file lock guarding
only the individual writes (as in the source), two interleaved
average-costed sales of 5 units on a pair holding 5 units both pass the
availability check against the same balance of 5 and both commit; the
stored balance ends at 0 while the ledger replay is -5 — the second
request's stock was not there, so effective stock went negative and the
projection diverged from the ledger. -/
theorem claim9_lock_scope_race :
    raceTwoAvgSales demoFive 1 1 5 3 5 3 21 300 300 22 400 400 =
      some demoRaced ∧
    getBal demoFive.balances 1 1 = 5 ∧
    (demoRaced.ledger.filter (fun tx => tx.type = TxType.SALE)).map
      (fun tx => tx.quantity) = [5, 5] ∧
    getBal demoRaced.balances 1 1 = 0 ∧
    ledgerBalance 1 1 demoRaced.ledger = -5 := by
  refine ⟨?_, by decide, by decide, by decide, ?_⟩
  · simp [raceTwoAvgSales, demoFive, demoRaced, getBal, setBal, List.lookup,
      saleOp, computeCOGS_Avg, loadPurchaseBatches, List.insertionSort,
      List.orderedInsert, avail, lotFive, payFive, mkPurchaseTx, mkSaleTx,
      matchesBatch]
  · simp [ledgerBalance, demoRaced, txDelta, lotFive, mkPurchaseTx, mkSaleTx,
      matchesBatch]

/-- C10: required numeric fields are validated by truthiness, so a
purchase request with quantity 0 or unit cost 0 and a sale request with
quantity 0 or unit price 0 are rejected as missing-fields validation
errors before anything is written, and consequently no reachable ledger
holds a zero-quantity transaction, a zero-cost purchase or a zero-priced
sale. -/
theorem claim10_truthy_zero_validation :
    (∀ (s : St) (pid wid sid : Nat) (q c : ℚ) (ref : Option Nat)
        (tid ts nm : Nat), q = 0 ∨ c = 0 →
        purchaseOp s pid wid sid q c ref tid ts nm =
          Except.error Err.missingFields) ∧
    (∀ (s : St) (pid wid : Nat) (q price : ℚ) (m : Method) (tid ts nm : Nat),
        q = 0 ∨ price = 0 →
        saleOp s pid wid q price m tid ts nm = Except.error Err.missingFields) ∧
    (∀ s, Reach s → ∀ tx ∈ s.ledger, tx.quantity ≠ 0 ∧
        (tx.type = TxType.PURCHASE → tx.unitCost ≠ 0) ∧
        (tx.type = TxType.SALE → tx.unitPrice ≠ 0)) :=
  ⟨fun s pid wid sid q c ref tid ts nm h =>
      purchaseOp_rejects_zero s pid wid sid q c ref tid ts nm h,
   fun s pid wid q price m tid ts nm h =>
      saleOp_rejects_zero s pid wid q price m tid ts nm h,
   fun s hs => (rawInv_reach hs).2.2⟩

/-- Witness for C10: a zero-quantity purchase and a zero-priced sale are
rejected as missing fields, and the two-lot ledger records no zero
quantity, cost or price. -/
theorem claim10_truthy_zero_validation_witness :
    purchaseOp demo0 1 1 2 0 5 none 11 100 100 =
      Except.error Err.missingFields ∧
    saleOp demo2 1 1 12 0 Method.FIFO 13 300 300 =
      Except.error Err.missingFields ∧
    ∀ tx ∈ demo2.ledger, tx.quantity ≠ 0 ∧
      (tx.type = TxType.PURCHASE → tx.unitCost ≠ 0) ∧
      (tx.type = TxType.SALE → tx.unitPrice ≠ 0) :=
  ⟨claim10_truthy_zero_validation.1 demo0 1 1 2 0 5 none 11 100 100 (Or.inl rfl),
   claim10_truthy_zero_validation.2.1 demo2 1 1 12 0 Method.FIFO 13 300 300
     (Or.inr rfl),
   claim10_truthy_zero_validation.2.2 demo2 (greach_reach greach_demo2)⟩
